import Mathlib

/-!
Verification of the entt sparse-set core (`src/entt/entity/sparse_set.hpp`)
against its natural-language specification.

The C++ class `basic_sparse_set<Entity, Allocator>` is shallowly embedded:
machine integers become `Nat` with explicit `% 2 ^ w` at the points where the
source casts, the paged sparse array becomes a list of optional pages, and the
packed buffer is modelled by its live prefix (`count` elements); `reserved`
tracks the capacity the allocator currently provides.  The page size
`ENTT_PAGE_SIZE` is a compile-time configuration constant; it is kept as an
explicit parameter `P` and theorems assume it is a power of two that divides
the index space, as the spec requires.
-/

namespace EnttSpec

/-! ### Entity identifier

The identifier scheme (`entity.hpp`) is not under `src/`; only its spec (§4.1,
§6) and its tests are available.  Modelled from the spec: the default 32-bit
identifier has `Wi = 20` low index bits and `Wv = 12` high version bits;
`null` has all bits set and compares on the index field only; `tombstone` has
the version bits set and compares on the version field only. -/

/-- Modelled from the spec: number of index bits (`entity_shift = 20`). -/
def entity_shift : Nat := 20

/-- Modelled from the spec: mask of the low index bits. -/
def entity_mask : Nat := 2 ^ 20 - 1

/-- Modelled from the spec: mask of the high version bits (12 bits). -/
def version_mask : Nat := 2 ^ 12 - 1

/-- Width of the raw identifier word (32 bits). -/
def wordSize : Nat := 2 ^ 32

/-- Modelled from the spec: the `null` sentinel as a raw word — all bits set. -/
def NULLW : Nat := 2 ^ 32 - 1

/-- Raw bit pattern of an identifier (`to_integral`). -/
def toIntegral (e : Nat) : Nat := e

/-- Low index bits of an identifier (spec `index(e)`). -/
def idxBits (e : Nat) : Nat := e &&& entity_mask

/-- High version bits of an identifier (spec `version(e)`). -/
def verBits (e : Nat) : Nat := (e >>> entity_shift) &&& version_mask

/-- Modelled from the spec: `compose(i, v) = (v << Wi) | (i & index_mask)`,
truncated to the identifier width. -/
def compose (i v : Nat) : Nat := ((v <<< entity_shift) ||| (i &&& entity_mask)) % wordSize

/-- Modelled from the spec: equality against `null` compares the index field
only. -/
def eqNull (e : Nat) : Bool := idxBits e == entity_mask

/-- Modelled from the spec: equality against `tombstone` compares the version
field only. -/
def eqTombstone (e : Nat) : Bool := verBits e == version_mask

/-- Modelled from the spec: the `tombstone` sentinel as a raw word — all
version bits set. -/
def tombstoneWord : Nat := version_mask <<< entity_shift

/-! ### Paged sparse array -/

/-- The bucket array of page handles: each slot is either absent (a null page
pointer) or a page of `P` raw cell words. -/
abbrev Sparse := List (Option (List Nat))

/-- Source `page(entt)`: `(to_integral(entt) & entity_mask) / page_size`. -/
def pageOf (P e : Nat) : Nat := (e &&& entity_mask) / P

/-- Source `offset(entt)`: `to_integral(entt) & (page_size - 1)`. -/
def offsetOf (P e : Nat) : Nat := e &&& (P - 1)

/-- Value of the sparse cell `sparse[page(e)][offset(e)]`; reads as `null` when
the bucket is too short or the page is absent. -/
def getCellSp (P : Nat) (sp : Sparse) (e : Nat) : Nat :=
  match sp.getD (pageOf P e) none with
  | some pg => pg.getD (offsetOf P e) NULLW
  | none => NULLW

/-- Writes the sparse cell of `e` (the page is assumed present, as at every
write site of the source; a write through an absent page would be undefined
behaviour in C++ and is a no-op here). -/
def writeCellSp (P : Nat) (sp : Sparse) (e v : Nat) : Sparse :=
  match sp.getD (pageOf P e) none with
  | some pg => sp.set (pageOf P e) (some (pg.set (offsetOf P e) v))
  | none => sp

/-- First half of `prepare_sparse_for(pos)`: grow the bucket array to
`pos + 1` slots, filling the new handles with the absent marker. -/
def growBucket (sp : Sparse) (pos : Nat) : Sparse :=
  if pos < sp.length then sp else sp ++ List.replicate (pos + 1 - sp.length) none

/-- Source `prepare_sparse_for(pos)`: grow the bucket array, then allocate
page `pos` filled with `null` if it is absent. -/
def prepareSparseFor (P : Nat) (sp : Sparse) (pos : Nat) : Sparse :=
  match (growBucket sp pos).getD pos none with
  | none => (growBucket sp pos).set pos (some (List.replicate P NULLW))
  | some _ => growBucket sp pos

/-! ### The sparse set -/

/-- State of `basic_sparse_set`: the paged sparse array, the live prefix of the
packed buffer (`count = packed.length`), and the packed capacity `reserved`. -/
structure SparseSet where
  sparse : Sparse
  packed : List Nat
  reserved : Nat
deriving DecidableEq, Repr

/-- A default-constructed set: `sparse = packed = ∅`, all counters zero. -/
def emptySet : SparseSet := ⟨[], [], 0⟩

/-- Source `contains(entt)`: `curr < bucket && sparse[curr] &&
sparse[curr][offset(entt)] != null`.  (`getD ... none` is `none` both when the
bucket is too short and when the page pointer is null.) -/
def contains (P : Nat) (s : SparseSet) (e : Nat) : Bool :=
  match s.sparse.getD (pageOf P e) none with
  | some pg => !(eqNull (pg.getD (offsetOf P e) NULLW))
  | none => false

/-- Source `index(entt)`: `to_integral(sparse[page(entt)][offset(entt)])`.
Meaningful only under the precondition `contains(entt)`. -/
def indexOf (P : Nat) (s : SparseSet) (e : Nat) : Nat :=
  toIntegral (getCellSp P s.sparse e)

/-- Source `at(pos)`: `pos < count ? packed[pos] : null`. -/
def atPos (s : SparseSet) (pos : Nat) : Nat :=
  if pos < s.packed.length then s.packed.getD pos 0 else NULLW

/-- Source `resize_packed(req)`: reallocates the packed buffer to `req` slots,
moving the first `min req count` live elements. -/
def resizePacked (s : SparseSet) (req : Nat) : SparseSet :=
  { s with packed := s.packed.take (min req s.packed.length), reserved := req }

/-- Source `grow_packed_if_required(req)`: grow geometrically
(`size_type(count * 1.5)`, which is `count + count / 2`), bumped to `req` when
larger. -/
def growPackedIfRequired (s : SparseSet) (req : Nat) : SparseSet :=
  if s.reserved < req then
    let sz := s.packed.length + s.packed.length / 2
    resizePacked s (if sz < req then req else sz)
  else s

/-- Source `reserve(cap)`: grows the packed capacity to exactly `cap` when
`cap > reserved`, never shrinks. -/
def reserveOp (s : SparseSet) (cap : Nat) : SparseSet :=
  if s.reserved < cap then resizePacked s cap else s

/-- State of `emplace(entt)` after the sparse cell has been written but before
the packed buffer is touched: `prepare_sparse_for(page(entt))[offset(entt)] =
entity_type{count}`.  This is exactly the state left behind when the
subsequent `grow_packed_if_required` throws on allocation failure. -/
def emplaceSparsePhase (P : Nat) (s : SparseSet) (e : Nat) : SparseSet :=
  let sp := writeCellSp P (prepareSparseFor P s.sparse (pageOf P e)) e (s.packed.length % wordSize)
  { s with sparse := sp }

/-- Source `emplace(entt)`: write the sparse cell, grow the packed buffer if
required, then `push_packed(entt)` (append at position `count`, increment
`count`). -/
def emplace (P : Nat) (s : SparseSet) (e : Nat) : SparseSet :=
  let s1 := emplaceSparsePhase P s e
  let s2 := growPackedIfRequired s1 (s.packed.length + 1)
  { s2 with packed := s2.packed ++ [e] }

/-- Hook invocations observable by a derived storage (§6 hook protocol). -/
inductive Hook where
  | aboutToErase (e : Nat)
  | swapAndPop (pos : Nat)
  | swapAt (i j : Nat)
deriving DecidableEq, Repr

/-- Source `erase(entt, ud)` together with the hook calls it fires, in order:
`about_to_erase(entt, ud)` first (the state is still untouched), then the
swap-and-pop — `pos = to_integral(ref)`, `other = packed[--count]`,
`sparse[page(other)][offset(other)] = ref`, `ref = null`,
`packed[pos] = other` — then `swap_and_pop(pos)`.  The debug-only assertion
write and the trivial destructor call are no-ops in release builds and are not
modelled. -/
def eraseWithHooks (P : Nat) (s : SparseSet) (e : Nat) : SparseSet × List Hook :=
  let pos := toIntegral (getCellSp P s.sparse e)
  let other := s.packed.getD (s.packed.length - 1) 0
  let sp1 := writeCellSp P s.sparse other pos
  let sp2 := writeCellSp P sp1 e NULLW
  let packed1 := (s.packed.dropLast).set pos other
  ({ s with sparse := sp2, packed := packed1 },
   [Hook.aboutToErase e, Hook.swapAndPop pos])

/-- Source `erase(entt, ud)`, state only. -/
def eraseOp (P : Nat) (s : SparseSet) (e : Nat) : SparseSet :=
  (eraseWithHooks P s e).1

/-- Source `swap(lhs, rhs)` with its `swap_at(from, to)` hook call: swaps the
two sparse cells and the two packed slots. -/
def swapOp (P : Nat) (s : SparseSet) (a b : Nat) : SparseSet × List Hook :=
  let i := indexOf P s a
  let j := indexOf P s b
  let ca := getCellSp P s.sparse a
  let cb := getCellSp P s.sparse b
  let sp1 := writeCellSp P s.sparse a cb
  let sp2 := writeCellSp P sp1 b ca
  let pa := s.packed.getD i 0
  let pb := s.packed.getD j 0
  let pk := (s.packed.set i pb).set j pa
  ({ s with sparse := sp2, packed := pk }, [Hook.swapAt i j])

/-! ### Iteration

The random-access iterator holds a pointer-to-pointer to the packed base and a
signed offset counting from the tail: `begin` starts at `count`, `operator++`
decrements, and dereference reads `packed[size_type(index - 1)]` (a `size_t`
cast of a signed value). -/

/-- Truncation of a signed 64-bit value to `size_t`, as in
`size_type(index - 1u)`. -/
def toSizeT (i : Int) : Nat := (i % (2 ^ 64 : Int)).toNat

/-- Dereference of an iterator whose signed offset is `idx`:
`(*packed)[size_type(idx - 1)]`. -/
def iterDeref (s : SparseSet) (idx : Int) : Nat :=
  s.packed.getD (toSizeT (idx - 1)) 0

/-- Offset of `begin()`: `count`. -/
def iterBeginIdx (s : SparseSet) : Int := (s.packed.length : Int)

/-- Offset after advancing an iterator `k` times (`operator++` decrements). -/
def iterAdvance (idx : Int) (k : Nat) : Int := idx - (k : Int)

/-- The sequence visited by `begin() .. end()`: element `k` is the dereference
of `begin()` advanced `k` times. -/
def iterSeq (s : SparseSet) : List Nat :=
  (List.range s.packed.length).map (fun k => iterDeref s (iterAdvance (iterBeginIdx s) k))

/-- The sequence visited by `rbegin() .. rend()`: plain pointers into the
packed array, in storage order. -/
def riterSeq (s : SparseSet) : List Nat := s.packed

/-! ### Sort

`sort_n(length, compare, algo)` first lets `algo` sort the reversed range
`[rbegin(packed + length), rbegin(packed))`, then walks permutation cycles to
repair the sparse array, firing `swap_at` along the way.  The default `algo`
(`std_sort`, i.e. `std::sort`) is modelled by `List.mergeSort`; which sorted
permutation `std::sort` produces is unspecified, and every property proved
below is about the resulting state, not about which equivalent ordering the
algorithm picked. -/

/-- Result of the `algo` call on the reversed range of the whole packed array:
the reversed view (tail first) is sorted ascending under `compare`, so storage
order is descending.  (`std::sort` leaves the order among `cmp`-equivalent
elements unspecified; it is modelled by a concrete comparison sort, and every
property proved below concerns the resulting state.) -/
def sortedPacked (cmp : Nat → Nat → Bool) (pk : List Nat) : List Nat :=
  (List.insertionSort (fun a b => (!(cmp b a)) = true) pk.reverse).reverse

/-- Inner `while(curr != next)` loop of the cycle walk in `sort_n`.  `fuel`
bounds the iteration count (a cycle is never longer than the packed array);
each iteration reads `idx = index(packed[next])`, fires `swap_at(next, idx)`,
redirects the sparse cell of `packed[curr]` to `curr`, and advances. -/
def walkInner (P : Nat) (pk : List Nat) : Nat → Sparse → Nat → Nat → Sparse × List Hook
  | 0, sp, _, _ => (sp, [])
  | fuel + 1, sp, curr, next =>
    if curr = next then (sp, [])
    else
      let idx := toIntegral (getCellSp P sp (pk.getD next 0))
      let entt := pk.getD curr 0
      let sp1 := writeCellSp P sp entt (curr % wordSize)
      let rest := walkInner P pk fuel sp1 next idx
      (rest.1, Hook.swapAt next idx :: rest.2)

/-- One iteration of the outer `for(pos < length)` loop: enter the inner loop
at `curr = pos`, `next = index(packed[pos])`. -/
def walkPos (P : Nat) (pk : List Nat) (sp : Sparse) (pos : Nat) : Sparse × List Hook :=
  walkInner P pk (pk.length + 1) sp pos (toIntegral (getCellSp P sp (pk.getD pos 0)))

/-- The outer loop of the cycle walk over a list of positions, accumulating the
`swap_at` trace. -/
def walkList (P : Nat) (pk : List Nat) (sp : Sparse) : List Nat → Sparse × List Hook
  | [] => (sp, [])
  | pos :: rest =>
    let step := walkPos P pk sp pos
    let tail := walkList P pk step.1 rest
    (tail.1, step.2 ++ tail.2)

/-- Source `sort(compare)` = `sort_n(count, compare, std_sort)`, with the
`swap_at` calls fired by the cycle walk. -/
def sortWithHooks (P : Nat) (s : SparseSet) (cmp : Nat → Nat → Bool) : SparseSet × List Hook :=
  let pk := sortedPacked cmp s.packed
  let walked := walkList P pk s.sparse (List.range pk.length)
  ({ s with packed := pk, sparse := walked.1 }, walked.2)

/-- Source `sort(compare)`, state only. -/
def sortOp (P : Nat) (s : SparseSet) (cmp : Nat → Nat → Bool) : SparseSet :=
  (sortWithHooks P s cmp).1

/-! ### Respect -/

/-- Loop of `respect(other)` over `other`'s iteration sequence.  The guard is
`while(pos && from != to)`; when `contains(*from)` the entity is swapped up to
position `pos` (unless already there) and `pos` is decremented. -/
def respectGo (P : Nat) (s : SparseSet) (pos : Nat) : List Nat → SparseSet
  | [] => s
  | e :: rest =>
    if pos = 0 then s
    else if contains P s e then
      let s1 := if decide (e ≠ s.packed.getD pos 0) = true
        then (swapOp P s (s.packed.getD pos 0) e).1 else s
      respectGo P s1 (pos - 1) rest
    else respectGo P s pos rest

/-- Source `respect(other)`.  `pos` starts at `count - 1` computed on
`size_type`, which wraps to `2 ^ 64 - 1` when the set is empty. -/
def respectOp (P : Nat) (s other : SparseSet) : SparseSet :=
  respectGo P s ((s.packed.length + (2 ^ 64 - 1)) % 2 ^ 64) (iterSeq other)

/-! ### Arithmetic of pages, offsets and keys -/

/-- The page size is a compile-time power of two dividing the index space
(§6: a power of two ≥ 1, not larger than the addressable `2 ^ Wi` slots). -/
def PageOK (P : Nat) : Prop := ∃ k, k ≤ entity_shift ∧ P = 2 ^ k

theorem PageOK.pos {P : Nat} (h : PageOK P) : 0 < P := by
  obtain ⟨k, -, rfl⟩ := h; positivity

theorem idxBits_eq_mod (e : Nat) : idxBits e = e % 2 ^ 20 := by
  simpa [idxBits, entity_mask] using Nat.and_pow_two_sub_one_eq_mod e 20

theorem idxBits_le (e : Nat) : idxBits e ≤ entity_mask := by
  rw [idxBits_eq_mod, entity_mask]
  have := Nat.mod_lt e (show 0 < 2 ^ 20 by norm_num)
  omega

theorem idxBits_idem (e : Nat) : idxBits (idxBits e) = idxBits e := by
  rw [idxBits_eq_mod, idxBits_eq_mod]
  simp

theorem idxBits_of_le (e : Nat) (h : e ≤ entity_mask) : idxBits e = e := by
  rw [idxBits_eq_mod, Nat.mod_eq_of_lt]
  unfold entity_mask at h; omega

theorem offsetOf_eq_mod {P : Nat} (hP : PageOK P) (e : Nat) :
    offsetOf P e = idxBits e % P := by
  obtain ⟨k, hk, rfl⟩ := hP
  have hd : (2 : Nat) ^ k ∣ 2 ^ 20 := pow_dvd_pow 2 (by simpa [entity_shift] using hk)
  rw [offsetOf, Nat.and_pow_two_sub_one_eq_mod e k, idxBits_eq_mod,
    Nat.mod_mod_of_dvd e hd]

theorem pageOf_eq_div (P e : Nat) : pageOf P e = idxBits e / P := rfl

theorem offsetOf_lt {P : Nat} (hP : PageOK P) (e : Nat) : offsetOf P e < P := by
  rw [offsetOf_eq_mod hP]; exact Nat.mod_lt _ hP.pos

theorem key_determines_cell {P : Nat} (hP : PageOK P) {a b : Nat}
    (h : idxBits a = idxBits b) : pageOf P a = pageOf P b ∧ offsetOf P a = offsetOf P b := by
  rw [pageOf_eq_div, pageOf_eq_div, offsetOf_eq_mod hP, offsetOf_eq_mod hP, h]
  exact ⟨rfl, rfl⟩

theorem cell_determines_key {P : Nat} (hP : PageOK P) {a b : Nat}
    (hpg : pageOf P a = pageOf P b) (hoff : offsetOf P a = offsetOf P b) :
    idxBits a = idxBits b := by
  rw [pageOf_eq_div, pageOf_eq_div] at hpg
  rw [offsetOf_eq_mod hP, offsetOf_eq_mod hP] at hoff
  rw [← Nat.div_add_mod (idxBits a) P, ← Nat.div_add_mod (idxBits b) P, hpg, hoff]

theorem eqNull_iff (e : Nat) : eqNull e = true ↔ idxBits e = entity_mask := by
  simp [eqNull]

theorem eqNull_false_of_lt {v : Nat} (h : v < entity_mask) : eqNull v = false := by
  have : idxBits v = v := idxBits_of_le v (le_of_lt h)
  simp only [eqNull, beq_eq_false_iff_ne, ne_eq, this]
  omega

theorem eqNull_NULLW : eqNull NULLW = true := by decide

/-! ### Sparse-array toolkit -/

/-- Every allocated page holds exactly `P` cells. -/
def pagesWF (P : Nat) (sp : Sparse) : Prop :=
  ∀ pg ∈ sp, ∀ l, pg = some l → l.length = P

/-- The page of `e` is allocated (so that a cell write lands). -/
def hasPage (P : Nat) (sp : Sparse) (e : Nat) : Prop :=
  (sp.getD (pageOf P e) none).isSome

theorem getCellSp_congr {P : Nat} (hP : PageOK P) (sp : Sparse) {a b : Nat}
    (h : idxBits a = idxBits b) : getCellSp P sp a = getCellSp P sp b := by
  obtain ⟨hpg, hoff⟩ := key_determines_cell hP h
  unfold getCellSp
  rw [hpg, hoff]

theorem hasPage_congr {P : Nat} (hP : PageOK P) (sp : Sparse) {a b : Nat}
    (h : idxBits a = idxBits b) : hasPage P sp a ↔ hasPage P sp b := by
  obtain ⟨hpg, -⟩ := key_determines_cell hP h
  unfold hasPage
  rw [hpg]

theorem hasPage_of_not_null {P : Nat} {sp : Sparse} {e : Nat}
    (h : eqNull (getCellSp P sp e) = false) : hasPage P sp e := by
  unfold getCellSp at h
  unfold hasPage
  cases hg : sp.getD (pageOf P e) none with
  | none => rw [hg] at h; exact absurd h (by simp [eqNull_NULLW])
  | some pg => simp

theorem length_writeCellSp (P : Nat) (sp : Sparse) (e v : Nat) :
    (writeCellSp P sp e v).length = sp.length := by
  unfold writeCellSp
  cases sp.getD (pageOf P e) none <;> simp

theorem pagesWF_writeCellSp {P : Nat} {sp : Sparse} (h : pagesWF P sp) (e v : Nat) :
    pagesWF P (writeCellSp P sp e v) := by
  unfold writeCellSp
  cases hg : sp.getD (pageOf P e) none with
  | none => exact h
  | some pg =>
    intro q hq l hl
    rcases List.mem_or_eq_of_mem_set hq with hq' | hq'
    · exact h q hq' l hl
    · subst hq'
      cases hl
      have hpg : pg.length = P := by
        have hmem : some pg ∈ sp := by
          have := List.getD_eq_getElem?_getD sp (pageOf P e) none
          rw [hg] at this
          rcases hx : sp[pageOf P e]? with - | y
          · rw [hx] at this; simp at this
          · have hy : y = some pg := by rw [hx] at this; simpa using this.symm
            subst hy
            exact List.getElem?_mem hx
        exact h _ hmem pg rfl
      simpa using hpg

theorem getD_set_self {α : Type} (l : List α) (i : Nat) (a d : α) (h : i < l.length) :
    (l.set i a).getD i d = a := by
  rw [List.getD_eq_getElem?_getD, List.getElem?_set_self h]
  rfl

theorem getD_set_ne {α : Type} (l : List α) {i j : Nat} (a d : α) (h : i ≠ j) :
    (l.set i a).getD j d = l.getD j d := by
  rw [List.getD_eq_getElem?_getD, List.getElem?_set_ne h, ← List.getD_eq_getElem?_getD]

theorem getD_append_replicate (sp : Sparse) (m i : Nat) :
    (sp ++ List.replicate m (none : Option (List Nat))).getD i none = sp.getD i none := by
  rw [List.getD_eq_getElem?_getD, List.getD_eq_getElem?_getD, List.getElem?_append]
  split
  · rfl
  · rw [List.getElem?_replicate]
    have : sp[i]? = none := by
      rw [List.getElem?_eq_none_iff]
      omega
    rw [this]
    split <;> rfl

theorem getD_replicate_self {α : Type} (m i : Nat) (a : α) :
    (List.replicate m a).getD i a = a := by
  rw [List.getD_eq_getElem?_getD, List.getElem?_replicate]
  split <;> rfl

theorem getD_some_lt {sp : Sparse} {i : Nat} {pg : List Nat}
    (h : sp.getD i none = some pg) : i < sp.length := by
  by_contra hc
  rw [List.getD_eq_getElem?_getD, List.getElem?_eq_none_iff.mpr (by omega)] at h
  simp at h

theorem page_length {P : Nat} {sp : Sparse} (hWF : pagesWF P sp) {i : Nat} {pg : List Nat}
    (h : sp.getD i none = some pg) : pg.length = P := by
  have hlt : i < sp.length := getD_some_lt h
  have hmem : some pg ∈ sp := by
    have hg : sp[i]? = some (some pg) := by
      rw [List.getD_eq_getElem?_getD, List.getElem?_eq_getElem hlt] at h
      rw [List.getElem?_eq_getElem hlt]
      simpa using h
    exact List.getElem?_mem hg
  exact hWF _ hmem pg rfl

theorem getCellSp_writeCellSp_self {P : Nat} (hP : PageOK P) {sp : Sparse}
    (hWF : pagesWF P sp) {e : Nat} (hpg : hasPage P sp e) (v : Nat) :
    getCellSp P (writeCellSp P sp e v) e = v := by
  unfold hasPage at hpg
  rcases hg : sp.getD (pageOf P e) none with - | pg
  · rw [hg] at hpg; simp at hpg
  unfold writeCellSp getCellSp
  rw [hg]
  have hlt : pageOf P e < sp.length := getD_some_lt hg
  rw [getD_set_self _ _ _ _ (by simpa using hlt)]
  exact getD_set_self _ _ _ _ (by rw [page_length hWF hg]; exact offsetOf_lt hP e)

theorem getCellSp_writeCellSp_ne {P : Nat} (hP : PageOK P) (sp : Sparse)
    {a e : Nat} (h : idxBits a ≠ idxBits e) (v : Nat) :
    getCellSp P (writeCellSp P sp e v) a = getCellSp P sp a := by
  unfold writeCellSp
  rcases hg : sp.getD (pageOf P e) none with - | pg
  · rfl
  unfold getCellSp
  by_cases hpg : pageOf P a = pageOf P e
  · have hoff : offsetOf P a ≠ offsetOf P e := fun hoff => h (cell_determines_key hP hpg hoff)
    rw [hpg, getD_set_self _ _ _ _ (by simpa using getD_some_lt hg), hg]
    dsimp only
    rw [getD_set_ne _ _ _ (fun hx => hoff hx.symm)]
  · rw [getD_set_ne _ _ _ (fun hx => hpg hx.symm)]

theorem hasPage_writeCellSp {P : Nat} (sp : Sparse) (e v a : Nat) :
    hasPage P (writeCellSp P sp e v) a ↔ hasPage P sp a := by
  unfold writeCellSp hasPage
  rcases hg : sp.getD (pageOf P e) none with - | pg
  · rfl
  by_cases hpg : pageOf P a = pageOf P e
  · rw [hpg, getD_set_self _ _ _ _ (by simpa using getD_some_lt hg), hg]
    simp
  · rw [getD_set_ne _ _ _ (fun hx => hpg hx.symm)]

theorem growBucket_getD (sp : Sparse) (pos i : Nat) :
    (growBucket sp pos).getD i none = sp.getD i none := by
  unfold growBucket
  split
  · rfl
  · exact getD_append_replicate sp _ i

theorem growBucket_len (sp : Sparse) (pos : Nat) : pos < (growBucket sp pos).length := by
  unfold growBucket
  split
  · assumption
  · rw [List.length_append, List.length_replicate]
    omega

theorem prepare_getD_self (P : Nat) (sp : Sparse) (pos : Nat) :
    (prepareSparseFor P sp pos).getD pos none =
      some ((sp.getD pos none).getD (List.replicate P NULLW)) := by
  unfold prepareSparseFor
  rcases hg : (growBucket sp pos).getD pos none with - | pg
  · rw [getD_set_self _ _ _ _ (by simpa using growBucket_len sp pos)]
    rw [growBucket_getD sp pos pos] at hg
    rw [hg]
    rfl
  · rw [hg]
    rw [growBucket_getD sp pos pos] at hg
    rw [hg]
    rfl

theorem prepare_getD_ne (P : Nat) (sp : Sparse) (pos : Nat) {i : Nat} (hne : i ≠ pos) :
    (prepareSparseFor P sp pos).getD i none = sp.getD i none := by
  unfold prepareSparseFor
  rcases (growBucket sp pos).getD pos none with - | pg
  · rw [getD_set_ne _ _ _ (fun hx => hne hx.symm)]
    exact growBucket_getD sp pos i
  · exact growBucket_getD sp pos i

theorem prepare_getCell (P : Nat) (sp : Sparse) (pos a : Nat) :
    getCellSp P (prepareSparseFor P sp pos) a = getCellSp P sp a := by
  unfold getCellSp
  by_cases hpg : pageOf P a = pos
  · rw [hpg, prepare_getD_self P sp pos]
    rcases hg : sp.getD pos none with - | pg
    · rw [Option.getD_none]
      dsimp only
      rw [getD_replicate_self]
    · rw [Option.getD_some]
  · rw [prepare_getD_ne P sp pos hpg]

theorem hasPage_prepare_self (P : Nat) (sp : Sparse) (e : Nat) :
    hasPage P (prepareSparseFor P sp (pageOf P e)) e := by
  unfold hasPage
  rw [prepare_getD_self]
  rfl

theorem hasPage_prepare_mono {P : Nat} {sp : Sparse} {a : Nat} (pos : Nat)
    (h : hasPage P sp a) : hasPage P (prepareSparseFor P sp pos) a := by
  unfold hasPage at h ⊢
  by_cases hpg : pageOf P a = pos
  · rw [hpg, prepare_getD_self]; rfl
  · rw [prepare_getD_ne P sp pos hpg]; exact h

theorem pagesWF_iff (P : Nat) (sp : Sparse) :
    pagesWF P sp ↔ ∀ i pg, sp.getD i none = some pg → pg.length = P := by
  constructor
  · intro h i pg hg
    exact page_length h hg
  · intro h q hq l hl
    subst hl
    obtain ⟨i, hi, hv⟩ := List.mem_iff_getElem.mp hq
    exact h i l (by rw [List.getD_eq_getElem?_getD, List.getElem?_eq_getElem hi, hv]; rfl)

theorem pagesWF_prepare {P : Nat} {sp : Sparse} (hWF : pagesWF P sp) (pos : Nat) :
    pagesWF P (prepareSparseFor P sp pos) := by
  rw [pagesWF_iff]
  intro i pg hg
  by_cases hpg : i = pos
  · subst hpg
    rw [prepare_getD_self] at hg
    rcases hs : sp.getD i none with - | pg0
    · rw [hs, Option.getD_none] at hg
      cases hg
      exact List.length_replicate _ _
    · rw [hs, Option.getD_some] at hg
      cases hg
      exact page_length hWF hs
  · rw [prepare_getD_ne P sp pos hpg] at hg
    exact page_length hWF hg

theorem getD_append_lt {α : Type} (l1 l2 : List α) (i : Nat) (d : α) (h : i < l1.length) :
    (l1 ++ l2).getD i d = l1.getD i d := by
  rw [List.getD_eq_getElem?_getD, List.getD_eq_getElem?_getD, List.getElem?_append, if_pos h]

theorem getD_append_len {α : Type} (l1 : List α) (a d : α) :
    (l1 ++ [a]).getD l1.length d = a := by
  rw [List.getD_eq_getElem?_getD, List.getElem?_append, if_neg (by omega)]
  simp

theorem getD_dropLast {α : Type} (l : List α) (i : Nat) (d : α) (h : i < l.length - 1) :
    l.dropLast.getD i d = l.getD i d := by
  rw [List.getD_eq_getElem?_getD, List.getD_eq_getElem?_getD, List.getElem?_dropLast, if_pos h]

theorem getD_set_oob {α : Type} (l : List α) {i : Nat} (a : α) (h : l.length ≤ i) :
    l.set i a = l :=
  List.set_eq_of_length_le h

/-! ### The primary invariant (§3)

For every live entity: its sparse cell is exactly its packed position (always
written as a plain position, hence with null version bits), and conversely any
non-null sparse cell points below `count` at an entity with the matching index
bits.  The size bound `count ≤ entity_mask` keeps stored positions from
colliding with the `null` index pattern. -/

def Inv (P : Nat) (s : SparseSet) : Prop :=
  pagesWF P s.sparse ∧
  s.packed.length ≤ entity_mask ∧
  (∀ i, i < s.packed.length → getCellSp P s.sparse (s.packed.getD i 0) = i) ∧
  (∀ e, eqNull (getCellSp P s.sparse e) = false →
    getCellSp P s.sparse e < s.packed.length ∧
    idxBits (s.packed.getD (getCellSp P s.sparse e) 0) = idxBits e)

theorem Inv_emptySet (P : Nat) : Inv P emptySet := by
  refine ⟨?_, ?_, ?_, ?_⟩
  · intro pg hpg
    simp [emptySet] at hpg
  · simp [emptySet, entity_mask]
  · intro i hi
    simp [emptySet] at hi
  · intro e he
    have : getCellSp P emptySet.sparse e = NULLW := by
      unfold getCellSp emptySet
      rfl
    rw [this, eqNull_NULLW] at he
    cases he

theorem contains_eq (P : Nat) (s : SparseSet) (e : Nat) :
    contains P s e = !(eqNull (getCellSp P s.sparse e)) := by
  unfold contains getCellSp
  rcases s.sparse.getD (pageOf P e) none with - | pg
  · rw [eqNull_NULLW]
    rfl
  · rfl

theorem contains_congr {P : Nat} (hP : PageOK P) (s : SparseSet) {a b : Nat}
    (h : idxBits a = idxBits b) : contains P s a = contains P s b := by
  rw [contains_eq, contains_eq, getCellSp_congr hP _ h]

theorem contains_true_iff (P : Nat) (s : SparseSet) (e : Nat) :
    contains P s e = true ↔ eqNull (getCellSp P s.sparse e) = false := by
  rw [contains_eq]
  cases eqNull (getCellSp P s.sparse e) <;> simp

theorem contains_spec {P : Nat} {s : SparseSet} {e : Nat} (hI : Inv P s)
    (hc : contains P s e = true) :
    getCellSp P s.sparse e < s.packed.length ∧
    idxBits (s.packed.getD (getCellSp P s.sparse e) 0) = idxBits e :=
  hI.2.2.2 e ((contains_true_iff P s e).mp hc)

theorem keys_inj {P : Nat} (hP : PageOK P) {s : SparseSet} (hI : Inv P s) {i j : Nat}
    (hi : i < s.packed.length) (hj : j < s.packed.length)
    (h : idxBits (s.packed.getD i 0) = idxBits (s.packed.getD j 0)) : i = j := by
  have hci := hI.2.2.1 i hi
  have hcj := hI.2.2.1 j hj
  have := getCellSp_congr hP s.sparse h
  rw [hci, hcj] at this
  exact this

theorem contains_of_mem {P : Nat} {s : SparseSet} (hI : Inv P s) {i : Nat}
    (hi : i < s.packed.length) : contains P s (s.packed.getD i 0) = true := by
  rw [contains_true_iff, hI.2.2.1 i hi]
  exact eqNull_false_of_lt (by have := hI.2.1; omega)

theorem mem_iff_key_contains {P : Nat} (hP : PageOK P) {s : SparseSet} (hI : Inv P s)
    (e : Nat) :
    contains P s e = true ↔ ∃ i, i < s.packed.length ∧
      idxBits (s.packed.getD i 0) = idxBits e := by
  constructor
  · intro hc
    obtain ⟨h1, h2⟩ := contains_spec hI hc
    exact ⟨_, h1, h2⟩
  · rintro ⟨i, hi, hkey⟩
    rw [← contains_congr hP s hkey]
    exact contains_of_mem hI hi

/-! ### Effect of `emplace` -/

theorem growPacked_sparse (s : SparseSet) (req : Nat) :
    (growPackedIfRequired s req).sparse = s.sparse := by
  unfold growPackedIfRequired resizePacked
  split <;> rfl

theorem growPacked_packed (s : SparseSet) (req : Nat) :
    (growPackedIfRequired s req).packed = s.packed := by
  unfold growPackedIfRequired resizePacked
  split
  · dsimp only
    have : min (if s.packed.length + s.packed.length / 2 < req then req
        else s.packed.length + s.packed.length / 2) s.packed.length = s.packed.length := by
      split <;> omega
    rw [this, List.take_length]
  · rfl

theorem emplace_packed (P : Nat) (s : SparseSet) (e : Nat) :
    (emplace P s e).packed = s.packed ++ [e] := by
  unfold emplace
  dsimp only
  rw [growPacked_packed]
  rfl

theorem emplace_sparse (P : Nat) (s : SparseSet) (e : Nat) :
    (emplace P s e).sparse =
      writeCellSp P (prepareSparseFor P s.sparse (pageOf P e)) e (s.packed.length % wordSize) := by
  unfold emplace
  dsimp only
  rw [growPacked_sparse]
  rfl

theorem emplace_getCell_self {P : Nat} (hP : PageOK P) {s : SparseSet}
    (hWF : pagesWF P s.sparse) (e : Nat) :
    getCellSp P (emplace P s e).sparse e = s.packed.length % wordSize := by
  rw [emplace_sparse]
  exact getCellSp_writeCellSp_self hP (pagesWF_prepare hWF _) (hasPage_prepare_self P _ e) _

theorem emplace_getCell_ne {P : Nat} (hP : PageOK P) {s : SparseSet} {a e : Nat}
    (h : idxBits a ≠ idxBits e) :
    getCellSp P (emplace P s e).sparse a = getCellSp P s.sparse a := by
  rw [emplace_sparse, getCellSp_writeCellSp_ne hP _ h, prepare_getCell]

theorem pagesWF_emplace {P : Nat} {s : SparseSet} (hWF : pagesWF P s.sparse) (e : Nat) :
    pagesWF P (emplace P s e).sparse := by
  rw [emplace_sparse]
  exact pagesWF_writeCellSp (pagesWF_prepare hWF _) _ _

theorem Inv_emplace {P : Nat} (hP : PageOK P) {s : SparseSet} {e : Nat} (hI : Inv P s)
    (hc : contains P s e = false) (hn : s.packed.length < entity_mask) :
    Inv P (emplace P s e) := by
  have hmod : s.packed.length % wordSize = s.packed.length :=
    Nat.mod_eq_of_lt (by unfold entity_mask at hn; unfold wordSize; omega)
  have hkey_ne : ∀ i, i < s.packed.length → idxBits (s.packed.getD i 0) ≠ idxBits e := by
    intro i hi hkey
    rw [(mem_iff_key_contains hP hI e).mpr ⟨i, hi, hkey⟩] at hc
    cases hc
  refine ⟨pagesWF_emplace hI.1 e, ?_, ?_, ?_⟩
  · rw [emplace_packed, List.length_append]
    simpa using hn
  · intro i hi
    rw [emplace_packed, List.length_append] at hi
    simp only [List.length_cons, List.length_nil] at hi
    rcases Nat.lt_or_ge i s.packed.length with hlt | hge
    · rw [emplace_packed, getD_append_lt _ _ _ _ hlt,
        emplace_getCell_ne hP (hkey_ne i hlt)]
      exact hI.2.2.1 i hlt
    · have hie : i = s.packed.length := by omega
      subst hie
      rw [emplace_packed, getD_append_len, emplace_getCell_self hP hI.1, hmod]
  · intro a ha
    by_cases hkey : idxBits a = idxBits e
    · rw [getCellSp_congr hP _ hkey, emplace_getCell_self hP hI.1, hmod]
      rw [emplace_packed, List.length_append, getD_append_len]
      constructor
      · simp
      · exact hkey.symm
    · rw [emplace_getCell_ne hP hkey] at ha ⊢
      obtain ⟨h1, h2⟩ := hI.2.2.2 a ha
      rw [emplace_packed, List.length_append, getD_append_lt _ _ _ _ h1]
      exact ⟨by simpa using Nat.lt_succ_of_lt h1, h2⟩

/-! ### Effect of `erase` -/

theorem erase_packed (P : Nat) (s : SparseSet) (e : Nat) :
    (eraseOp P s e).packed =
      (s.packed.dropLast).set (getCellSp P s.sparse e)
        (s.packed.getD (s.packed.length - 1) 0) := rfl

theorem erase_sparse (P : Nat) (s : SparseSet) (e : Nat) :
    (eraseOp P s e).sparse =
      writeCellSp P
        (writeCellSp P s.sparse (s.packed.getD (s.packed.length - 1) 0)
          (getCellSp P s.sparse e))
        e NULLW := rfl

theorem erase_length (P : Nat) (s : SparseSet) (e : Nat) :
    (eraseOp P s e).packed.length = s.packed.length - 1 := by
  rw [erase_packed, List.length_set, List.length_dropLast]

theorem pagesWF_erase {P : Nat} {s : SparseSet} (hWF : pagesWF P s.sparse) (e : Nat) :
    pagesWF P (eraseOp P s e).sparse := by
  rw [erase_sparse]
  exact pagesWF_writeCellSp (pagesWF_writeCellSp hWF _ _) _ _

theorem key_other_ne {P : Nat} (hP : PageOK P) {s : SparseSet} {e : Nat} (hI : Inv P s)
    (hc : contains P s e = true) (hne : getCellSp P s.sparse e ≠ s.packed.length - 1) :
    idxBits (s.packed.getD (s.packed.length - 1) 0) ≠ idxBits e := by
  obtain ⟨hlt, hkey⟩ := contains_spec hI hc
  intro h
  exact hne (keys_inj hP hI (by omega) hlt (h.trans hkey.symm)).symm

theorem erase_getCell_self {P : Nat} (hP : PageOK P) {s : SparseSet} {e : Nat}
    (hI : Inv P s) (hc : contains P s e = true) :
    getCellSp P (eraseOp P s e).sparse e = NULLW := by
  rw [erase_sparse]
  have hpg : hasPage P s.sparse e :=
    hasPage_of_not_null ((contains_true_iff P s e).mp hc)
  exact getCellSp_writeCellSp_self hP (pagesWF_writeCellSp hI.1 _ _)
    ((hasPage_writeCellSp _ _ _ _).mpr hpg) _

theorem erase_getCell_other {P : Nat} (hP : PageOK P) {s : SparseSet} {e : Nat}
    (hI : Inv P s) (hc : contains P s e = true)
    (hne : getCellSp P s.sparse e ≠ s.packed.length - 1) :
    getCellSp P (eraseOp P s e).sparse (s.packed.getD (s.packed.length - 1) 0) =
      getCellSp P s.sparse e := by
  obtain ⟨hlt, -⟩ := contains_spec hI hc
  have hko := key_other_ne hP hI hc hne
  have hpg : hasPage P s.sparse (s.packed.getD (s.packed.length - 1) 0) :=
    hasPage_of_not_null
      ((contains_true_iff P s _).mp (contains_of_mem hI (by omega)))
  rw [erase_sparse, getCellSp_writeCellSp_ne hP _ hko,
    getCellSp_writeCellSp_self hP hI.1 hpg]

theorem erase_getCell_ne {P : Nat} (hP : PageOK P) {s : SparseSet} {e a : Nat}
    (he : idxBits a ≠ idxBits e)
    (ho : idxBits a ≠ idxBits (s.packed.getD (s.packed.length - 1) 0)) :
    getCellSp P (eraseOp P s e).sparse a = getCellSp P s.sparse a := by
  rw [erase_sparse, getCellSp_writeCellSp_ne hP _ he, getCellSp_writeCellSp_ne hP _ ho]

theorem contains_erase_self {P : Nat} (hP : PageOK P) {s : SparseSet} {e : Nat}
    (hI : Inv P s) (hc : contains P s e = true) :
    contains P (eraseOp P s e) e = false := by
  rw [contains_eq, erase_getCell_self hP hI hc, eqNull_NULLW]
  rfl

theorem Inv_erase {P : Nat} (hP : PageOK P) {s : SparseSet} {e : Nat} (hI : Inv P s)
    (hc : contains P s e = true) : Inv P (eraseOp P s e) := by
  obtain ⟨hlt, hkey⟩ := contains_spec hI hc
  have hn1 : 1 ≤ s.packed.length := by omega
  have hlen : (eraseOp P s e).packed.length = s.packed.length - 1 := erase_length P s e
  have hkey_i_ne : ∀ i, i < s.packed.length → i ≠ getCellSp P s.sparse e →
      idxBits (s.packed.getD i 0) ≠ idxBits e := by
    intro i hi hne h
    exact hne (keys_inj hP hI hi hlt (h.trans hkey.symm))
  have hkey_i_no : ∀ i, i < s.packed.length - 1 →
      idxBits (s.packed.getD i 0) ≠ idxBits (s.packed.getD (s.packed.length - 1) 0) := by
    intro i hi h
    have := keys_inj hP hI (by omega) (by omega) h
    omega
  have hgetD : ∀ i, i < s.packed.length - 1 → i ≠ getCellSp P s.sparse e →
      (eraseOp P s e).packed.getD i 0 = s.packed.getD i 0 := by
    intro i hi hne
    rw [erase_packed, getD_set_ne _ _ _ (fun hx => hne hx.symm), getD_dropLast _ _ _ hi]
  have hm := hI.2.1
  refine ⟨pagesWF_erase hI.1 e, by omega, ?_, ?_⟩
  · intro i hi
    rw [hlen] at hi
    by_cases hie : i = getCellSp P s.sparse e
    · subst hie
      rw [erase_packed, getD_set_self _ _ _ _ (by rw [List.length_dropLast]; omega),
        erase_getCell_other hP hI hc (by omega)]
    · rw [hgetD i hi hie, erase_getCell_ne hP (hkey_i_ne i (by omega) hie) (hkey_i_no i hi)]
      exact hI.2.2.1 i (by omega)
  · intro a ha
    by_cases hae : idxBits a = idxBits e
    · rw [getCellSp_congr hP _ hae, erase_getCell_self hP hI hc, eqNull_NULLW] at ha
      cases ha
    · by_cases hao : idxBits a = idxBits (s.packed.getD (s.packed.length - 1) 0)
      · have hce : getCellSp P s.sparse e ≠ s.packed.length - 1 := by
          intro hx
          rw [← hx] at hao
          exact hae (hao.trans hkey)
        rw [getCellSp_congr hP _ hao, erase_getCell_other hP hI hc hce] at ha ⊢
        refine ⟨by rw [hlen]; omega, ?_⟩
        rw [erase_packed, getD_set_self _ _ _ _ (by rw [List.length_dropLast]; omega), hao]
      · rw [erase_getCell_ne hP hae hao] at ha ⊢
        obtain ⟨h1, h2⟩ := hI.2.2.2 a ha
        have hvc : getCellSp P s.sparse a ≠ getCellSp P s.sparse e := by
          intro hx
          apply hae
          rw [← h2, hx]
          exact hkey
        have hvn : getCellSp P s.sparse a ≠ s.packed.length - 1 := by
          intro hx
          apply hao
          rw [← h2, hx]
        refine ⟨by omega, ?_⟩
        rw [hgetD _ (by omega) hvc]
        exact h2

/-! ### Sequences of `emplace`/`erase` -/

/-- A step of a client-visible mutation sequence. -/
inductive Op where
  | ins (e : Nat)
  | del (e : Nat)
deriving DecidableEq, Repr

/-- Runs a sequence of `emplace`/`erase` steps. -/
def runOps (P : Nat) : SparseSet → List Op → SparseSet
  | s, [] => s
  | s, Op.ins e :: rest => runOps P (emplace P s e) rest
  | s, Op.del e :: rest => runOps P (eraseOp P s e) rest

/-- The sequence violates no precondition (§7: `emplace` requires
`!contains`, `erase` requires `contains`) and every `emplace` happens while
fewer than `entity_mask` entities are present, so that a stored packed
position never collides with the `null` index pattern. -/
def validOps (P : Nat) : SparseSet → List Op → Bool
  | _, [] => true
  | s, Op.ins e :: rest =>
    !(contains P s e) && decide (s.packed.length < entity_mask) &&
      validOps P (emplace P s e) rest
  | s, Op.del e :: rest => contains P s e && validOps P (eraseOp P s e) rest

theorem Inv_runOps {P : Nat} (hP : PageOK P) :
    ∀ (ops : List Op) (s : SparseSet), Inv P s → validOps P s ops = true →
      Inv P (runOps P s ops) := by
  intro ops
  induction ops with
  | nil => intro s hI _; exact hI
  | cons op rest ih =>
    intro s hI hv
    cases op with
    | ins e =>
      simp only [validOps, Bool.and_eq_true, Bool.not_eq_true'] at hv
      exact ih _ (Inv_emplace hP hI hv.1.1 (by simpa using hv.1.2)) hv.2
    | del e =>
      simp only [validOps, Bool.and_eq_true] at hv
      exact ih _ (Inv_erase hP hI hv.1) hv.2

/-! ### Claim C1 -/

/-- C1 (amended).  For every sequence of `emplace`/`erase` with no
precondition violation in which each `emplace` happens while the size is
below `entity_mask`, after each step and for every identifier `e`:
`contains(e)` holds iff some identifier with the same index bits as `e`
occurs in the packed array, iff the sparse cell of `e` is not null; and
`index(e)` then equals the packed position of that identifier.  (As frozen
the claim reads "e occurs in the packed array"; `contains` compares only
index bits, so a stale version of a live identifier defeats that leg — see
the counterexample.) -/
theorem c1_theorem (P : Nat) (hP : PageOK P) (ops : List Op)
    (hv : validOps P emptySet ops = true) (e : Nat) :
    (contains P (runOps P emptySet ops) e = true ↔
      ∃ i, i < (runOps P emptySet ops).packed.length ∧
        idxBits ((runOps P emptySet ops).packed.getD i 0) = idxBits e) ∧
    (contains P (runOps P emptySet ops) e = true ↔
      eqNull (getCellSp P (runOps P emptySet ops).sparse e) = false) ∧
    (∀ i, i < (runOps P emptySet ops).packed.length →
      idxBits ((runOps P emptySet ops).packed.getD i 0) = idxBits e →
      indexOf P (runOps P emptySet ops) e = i) := by
  have hI := Inv_runOps hP ops emptySet (Inv_emptySet P) hv
  refine ⟨mem_iff_key_contains hP hI e, contains_true_iff P _ e, ?_⟩
  intro i hi hkey
  have h1 := hI.2.2.1 i hi
  have h2 := getCellSp_congr hP (runOps P emptySet ops).sparse hkey
  unfold indexOf toIntegral
  rw [← h2, h1]

/-- C1 witness: a concrete valid sequence checked against the theorem. -/
theorem c1_witness :
    contains 4 (runOps 4 emptySet [Op.ins 5, Op.ins 7, Op.del 5]) 7 = true ↔
      ∃ i, i < (runOps 4 emptySet [Op.ins 5, Op.ins 7, Op.del 5]).packed.length ∧
        idxBits ((runOps 4 emptySet [Op.ins 5, Op.ins 7, Op.del 5]).packed.getD i 0) =
          idxBits 7 :=
  (c1_theorem 4 ⟨2, by decide, by decide⟩ [Op.ins 5, Op.ins 7, Op.del 5] (by decide) 7).1

/-- C1 counterexample: after the single valid step `emplace(5)` (page size 4),
the stale identifier `compose(5, 1)` is reported contained although it does
not occur in the packed array — the claimed three-way equivalence fails. -/
theorem c1_counterexample :
    validOps 4 emptySet [Op.ins 5] = true ∧
    contains 4 (runOps 4 emptySet [Op.ins 5]) (compose 5 1) = true ∧
    ¬ (compose 5 1 ∈ (runOps 4 emptySet [Op.ins 5]).packed) := by decide

/-! ### Claim C7 -/

theorem contains_emptySet (P : Nat) (e : Nat) : contains P emptySet e = false := rfl

/-- C7.  `emplace(e); erase(e); emplace(e)` on a fresh set matches a single
`emplace(e)` on a fresh set in size, containment and index, and `contains(e)`
holds at the end; and in general `emplace(e)` on a set of size `n` appends `e`
at packed position `n`, records `n` in `e`'s sparse cell, and sets the count
to `n + 1`. -/
theorem c7_theorem (P : Nat) (hP : PageOK P) :
    (∀ e,
      (emplace P (eraseOp P (emplace P emptySet e) e) e).packed.length =
        (emplace P emptySet e).packed.length ∧
      contains P (emplace P (eraseOp P (emplace P emptySet e) e) e) e =
        contains P (emplace P emptySet e) e ∧
      indexOf P (emplace P (eraseOp P (emplace P emptySet e) e) e) e =
        indexOf P (emplace P emptySet e) e ∧
      contains P (emplace P (eraseOp P (emplace P emptySet e) e) e) e = true) ∧
    (∀ s e, Inv P s → contains P s e = false →
      (emplace P s e).packed = s.packed ++ [e] ∧
      getCellSp P (emplace P s e).sparse e = s.packed.length ∧
      (emplace P s e).packed.length = s.packed.length + 1) := by
  have hmask : (0 : Nat) < entity_mask := by decide
  have general : ∀ s e, Inv P s → contains P s e = false →
      (emplace P s e).packed = s.packed ++ [e] ∧
      getCellSp P (emplace P s e).sparse e = s.packed.length ∧
      (emplace P s e).packed.length = s.packed.length + 1 := by
    intro s e hI _
    have hmod : s.packed.length % wordSize = s.packed.length :=
      Nat.mod_eq_of_lt (by have := hI.2.1; unfold entity_mask at this; unfold wordSize; omega)
    refine ⟨emplace_packed P s e, ?_, ?_⟩
    · rw [emplace_getCell_self hP hI.1, hmod]
    · rw [emplace_packed, List.length_append]
      rfl
  refine ⟨?_, general⟩
  intro e
  have hI0 := Inv_emptySet P
  have hc0 : contains P emptySet e = false := contains_emptySet P e
  have hI1 : Inv P (emplace P emptySet e) := Inv_emplace hP hI0 hc0 hmask
  obtain ⟨hpk1, hcell1, hlen1⟩ := general emptySet e hI0 hc0
  have hc1 : contains P (emplace P emptySet e) e = true := by
    rw [contains_true_iff, hcell1]
    exact eqNull_false_of_lt hmask
  have hI2 : Inv P (eraseOp P (emplace P emptySet e) e) := Inv_erase hP hI1 hc1
  have hc2 : contains P (eraseOp P (emplace P emptySet e) e) e = false :=
    contains_erase_self hP hI1 hc1
  have hlen2 : (eraseOp P (emplace P emptySet e) e).packed.length = 0 := by
    rw [erase_length, hlen1]
    rfl
  obtain ⟨hpk3, hcell3, hlen3⟩ := general _ e hI2 hc2
  have hc3 : contains P (emplace P (eraseOp P (emplace P emptySet e) e) e) e = true := by
    rw [contains_true_iff, hcell3, hlen2]
    exact eqNull_false_of_lt hmask
  refine ⟨?_, ?_, ?_, hc3⟩
  · rw [hlen3, hlen2, hlen1]
    rfl
  · rw [hc3, hc1]
  · unfold indexOf toIntegral
    rw [hcell3, hcell1, hlen2]
    rfl

/-- C7 witness: the theorem applied at page size 4 and identifier 5, first
part; second part at the singleton set built by one `emplace`. -/
theorem c7_witness :
    (contains 4 (emplace 4 (eraseOp 4 (emplace 4 emptySet 5) 5) 5) 5 = true) ∧
    ((emplace 4 (emplace 4 emptySet 9) 5).packed = (emplace 4 emptySet 9).packed ++ [5]) :=
  ⟨((c7_theorem 4 ⟨2, by decide, by decide⟩).1 5).2.2.2,
   ((c7_theorem 4 ⟨2, by decide, by decide⟩).2 (emplace 4 emptySet 9) 5
      (Inv_emplace ⟨2, by decide, by decide⟩ (Inv_emptySet 4) (by decide) (by decide))
      (by decide)).1⟩

/-! ### Claim C2 -/

/-- C2.  For a set containing `e`, `erase(e, ud)` fires `about_to_erase(e)`
exactly once and first, while `e` is still queryable (the state is untouched
at that point, and `contains(e)` holds on it); it then decrements the count;
in the non-tail case the former tail is moved into `e`'s former packed
position and its sparse cell is redirected there; `e`'s sparse cell is set to
null (also in the tail-erase case); `swap_and_pop(pos)` fires exactly once,
last; afterwards `contains(e)` is false and the primary invariant holds. -/
theorem c2_theorem (P : Nat) (hP : PageOK P) (s : SparseSet) (e : Nat)
    (hI : Inv P s) (hc : contains P s e = true) :
    (eraseWithHooks P s e).2 =
      [Hook.aboutToErase e, Hook.swapAndPop (indexOf P s e)] ∧
    contains P s e = true ∧
    (eraseWithHooks P s e).1.packed.length = s.packed.length - 1 ∧
    (indexOf P s e < s.packed.length - 1 →
      (eraseWithHooks P s e).1.packed.getD (indexOf P s e) 0 =
        s.packed.getD (s.packed.length - 1) 0 ∧
      getCellSp P (eraseWithHooks P s e).1.sparse
        (s.packed.getD (s.packed.length - 1) 0) = indexOf P s e) ∧
    getCellSp P (eraseWithHooks P s e).1.sparse e = NULLW ∧
    contains P (eraseWithHooks P s e).1 e = false ∧
    Inv P (eraseWithHooks P s e).1 := by
  have heq : (eraseWithHooks P s e).1 = eraseOp P s e := rfl
  have hidx : indexOf P s e = getCellSp P s.sparse e := rfl
  refine ⟨rfl, hc, ?_, ?_, ?_, ?_, ?_⟩
  · rw [heq, erase_length]
  · intro hlt
    rw [hidx] at hlt ⊢
    constructor
    · rw [heq, erase_packed,
        getD_set_self _ _ _ _ (by rw [List.length_dropLast]; exact hlt)]
    · rw [heq, erase_getCell_other hP hI hc (by omega)]
  · rw [heq]
    exact erase_getCell_self hP hI hc
  · rw [heq]
    exact contains_erase_self hP hI hc
  · rw [heq]
    exact Inv_erase hP hI hc

/-- C2 witness: erasing `1` from the two-element set `{1, 2}` (page size 4). -/
theorem c2_witness :
    (eraseWithHooks 4 (emplace 4 (emplace 4 emptySet 1) 2) 1).2 =
      [Hook.aboutToErase 1, Hook.swapAndPop (indexOf 4 (emplace 4 (emplace 4 emptySet 1) 2) 1)] ∧
    contains 4 (emplace 4 (emplace 4 emptySet 1) 2) 1 = true ∧
    (eraseWithHooks 4 (emplace 4 (emplace 4 emptySet 1) 2) 1).1.packed.length =
      (emplace 4 (emplace 4 emptySet 1) 2).packed.length - 1 ∧
    (indexOf 4 (emplace 4 (emplace 4 emptySet 1) 2) 1 <
        (emplace 4 (emplace 4 emptySet 1) 2).packed.length - 1 →
      (eraseWithHooks 4 (emplace 4 (emplace 4 emptySet 1) 2) 1).1.packed.getD
          (indexOf 4 (emplace 4 (emplace 4 emptySet 1) 2) 1) 0 =
        (emplace 4 (emplace 4 emptySet 1) 2).packed.getD
          ((emplace 4 (emplace 4 emptySet 1) 2).packed.length - 1) 0 ∧
      getCellSp 4 (eraseWithHooks 4 (emplace 4 (emplace 4 emptySet 1) 2) 1).1.sparse
          ((emplace 4 (emplace 4 emptySet 1) 2).packed.getD
            ((emplace 4 (emplace 4 emptySet 1) 2).packed.length - 1) 0) =
        indexOf 4 (emplace 4 (emplace 4 emptySet 1) 2) 1) ∧
    getCellSp 4 (eraseWithHooks 4 (emplace 4 (emplace 4 emptySet 1) 2) 1).1.sparse 1 =
      NULLW ∧
    contains 4 (eraseWithHooks 4 (emplace 4 (emplace 4 emptySet 1) 2) 1).1 1 = false ∧
    Inv 4 (eraseWithHooks 4 (emplace 4 (emplace 4 emptySet 1) 2) 1).1 :=
  c2_theorem 4 ⟨2, by decide, by decide⟩ (emplace 4 (emplace 4 emptySet 1) 2) 1
    (Inv_emplace ⟨2, by decide, by decide⟩
      (Inv_emplace ⟨2, by decide, by decide⟩ (Inv_emptySet 4) (by decide) (by decide))
      (by decide) (by decide))
    (by decide)

/-! ### Claim C3

The code writes the sparse cell of `e` before growing the packed buffer.
When the growth allocation throws, the exception propagates with the sparse
cell already pointing at position `count`: the set is not in its
pre-operation state, the primary invariant is broken (the cell points past
`count`), and `contains(e)` reports the failed insertion as present.  The
spec (§7) is the clear intent and the write ordering in `emplace` is the
slip; later upstream revisions reorder exactly this. -/

/-- C3.  On a fresh set (page size 4), growth is required for the first
`emplace` (so the allocator is invoked and can fail), and the state at the
allocation point — `emplaceSparsePhase` — already reports `contains(5)` even
though the packed array is untouched; it is not the pre-operation state. -/
theorem c3_theorem :
    emptySet.reserved < emptySet.packed.length + 1 ∧
    contains 4 (emplaceSparsePhase 4 emptySet 5) 5 = true ∧
    (emplaceSparsePhase 4 emptySet 5).packed = [] ∧
    emplaceSparsePhase 4 emptySet 5 ≠ emptySet := by decide

/-! ### Claim C9 -/

/-- C9.  `contains` reads only the index bits of its argument: any two
identifiers with equal low bits are indistinguishable to `contains` on every
set; in particular a stale identifier whose index bits match a live packed
entity is reported as contained. -/
theorem c9_theorem (P : Nat) (hP : PageOK P) :
    (∀ (s : SparseSet) (a b : Nat), idxBits a = idxBits b →
      contains P s a = contains P s b) ∧
    (∀ (s : SparseSet) (a : Nat) (i : Nat), Inv P s → i < s.packed.length →
      idxBits a = idxBits (s.packed.getD i 0) → contains P s a = true) := by
  refine ⟨fun s a b h => contains_congr hP s h, ?_⟩
  intro s a i hI hi hkey
  rw [contains_congr hP s hkey]
  exact contains_of_mem hI hi

/-- C9 witness: the stale identifier `compose(5, 1)` and the live `5` agree
on `contains` over the singleton set `{5}`. -/
theorem c9_witness :
    contains 4 (emplace 4 emptySet 5) (compose 5 1) =
      contains 4 (emplace 4 emptySet 5) 5 ∧
    contains 4 (emplace 4 emptySet 5) (compose 5 1) = true :=
  ⟨(c9_theorem 4 ⟨2, by decide, by decide⟩).1 (emplace 4 emptySet 5) (compose 5 1) 5
      (by decide),
   (c9_theorem 4 ⟨2, by decide, by decide⟩).2 (emplace 4 emptySet 5) (compose 5 1) 0
      (Inv_emplace ⟨2, by decide, by decide⟩ (Inv_emptySet 4) (by decide) (by decide))
      (by decide) (by decide)⟩

/-! ### Claim C10 -/

theorem respectGo_nochange {P : Nat} {s : SparseSet}
    (hnc : ∀ e, contains P s e = false) :
    ∀ (l : List Nat) (pos : Nat), respectGo P s pos l = s := by
  intro l
  induction l with
  | nil => intro pos; rfl
  | cons e rest ih =>
    intro pos
    unfold respectGo
    split
    · rfl
    · rw [hnc e]
      exact ih pos

/-- C10.  `respect(other)` on an empty set terminates and leaves the set
unchanged for every `other`: the local position wraps to `2 ^ 64 - 1` (shown
by the second conjunct, which records the value the model starts the loop
with), but the loop body never touches the packed array because `contains`
is false for every traversed element. -/
theorem c10_theorem (P : Nat) (s other : SparseSet) (hI : Inv P s)
    (h : s.packed.length = 0) :
    respectOp P s other = s ∧
    (s.packed.length + (2 ^ 64 - 1)) % 2 ^ 64 = 2 ^ 64 - 1 := by
  have hnc : ∀ e, contains P s e = false := by
    intro e
    rcases hx : contains P s e with - | -
    · rfl
    · obtain ⟨h1, -⟩ := contains_spec hI hx
      omega
  refine ⟨respectGo_nochange hnc _ _, ?_⟩
  rw [h, Nat.zero_add, Nat.mod_eq_of_lt (by norm_num)]

/-- C10 witness: an empty set respecting a two-element set. -/
theorem c10_witness :
    respectOp 4 emptySet (emplace 4 (emplace 4 emptySet 3) 9) = emptySet :=
  (c10_theorem 4 emptySet (emplace 4 (emplace 4 emptySet 3) 9) (Inv_emptySet 4) rfl).1

/-! ### Claim C8 -/

/-- C8.  Sentinel equalities (modelled from the spec, §4.1/§6, and pinned by
the assertions of `test/entt/entity/entity.cpp`): `null == null` and
`tombstone == tombstone`; an identifier equals `null` iff its low 20 index
bits are all ones, version ignored — so `null` differs from every identifier
whose low bits are not all ones, even from the pure tombstone pattern; an
identifier equals `tombstone` iff its high 12 version bits are all ones; the
all-ones word equals both sentinels.  The concrete conjuncts replay the unit
test: `entity{0}` equals neither sentinel, `entity{entity_mask}` is null,
`entity{version_mask << entity_shift}` is tombstone. -/
theorem c8_theorem :
    eqNull NULLW = true ∧
    eqTombstone (version_mask <<< entity_shift) = true ∧
    (∀ e, eqNull e = true ↔ idxBits e = entity_mask) ∧
    (∀ e, eqTombstone e = true ↔ verBits e = version_mask) ∧
    (∀ e, idxBits e ≠ entity_mask → eqNull e = false) ∧
    eqNull (version_mask <<< entity_shift) = false ∧
    eqTombstone NULLW = true ∧
    eqNull 0 = false ∧
    eqTombstone 0 = false ∧
    eqNull entity_mask = true := by
  refine ⟨by decide, by decide, ?_, ?_, ?_, by decide, by decide, by decide, by decide,
    by decide⟩
  · intro e
    simp [eqNull]
  · intro e
    simp [eqTombstone]
  · intro e h
    unfold eqNull
    simp [h]

/-! ### Claim C6 -/

theorem iterDeref_eq {s : SparseSet} (hn : s.packed.length < 2 ^ 64) {k : Nat}
    (hk : k < s.packed.length) :
    iterDeref s (iterAdvance (iterBeginIdx s) k) =
      s.packed.getD (s.packed.length - 1 - k) 0 := by
  unfold iterDeref iterAdvance iterBeginIdx toSizeT
  have h1 : ((s.packed.length : Int) - k - 1) % 2 ^ 64 = (s.packed.length : Int) - k - 1 :=
    Int.emod_eq_of_lt (by omega) (by push_cast; omega)
  rw [h1]
  congr 1
  omega

theorem iterSeq_getD {s : SparseSet} (hn : s.packed.length < 2 ^ 64) {k : Nat}
    (hk : k < s.packed.length) :
    (iterSeq s).getD k 0 = s.packed.getD (s.packed.length - 1 - k) 0 := by
  unfold iterSeq
  rw [List.getD_eq_getElem?_getD, List.getElem?_map, List.getElem?_range hk]
  exact iterDeref_eq hn hk

theorem iterSeq_eq_reverse (s : SparseSet) (hn : s.packed.length < 2 ^ 64) :
    iterSeq s = s.packed.reverse := by
  apply List.ext_getElem
  · unfold iterSeq
    rw [List.length_map, List.length_range, List.length_reverse]
  · intro k hk1 hk2
    have hk : k < s.packed.length := by
      unfold iterSeq at hk1
      rw [List.length_map, List.length_range] at hk1
      exact hk1
    have h1 := iterSeq_getD hn hk
    rw [List.getD_eq_getElem?_getD, List.getElem?_eq_getElem hk1] at h1
    rw [List.getD_eq_getElem?_getD,
      List.getElem?_eq_getElem (by omega : s.packed.length - 1 - k < s.packed.length)] at h1
    simp only [Option.getD_some] at h1
    rw [h1, List.getElem_reverse]

/-- C6.  The `k`-th element visited by `begin() .. end()` is
`packed[n - 1 - k]`: iteration runs from the tail of the packed array down to
position 0, while `rbegin() .. rend()` and `data()[0 .. n)` traverse packed
in storage order — the same multiset, reversed. -/
theorem c6_theorem (s : SparseSet) (hn : s.packed.length < 2 ^ 64) :
    (∀ k, k < s.packed.length →
      (iterSeq s).getD k 0 = s.packed.getD (s.packed.length - 1 - k) 0) ∧
    riterSeq s = s.packed ∧
    iterSeq s = s.packed.reverse ∧
    (iterSeq s).Perm s.packed := by
  have hrev := iterSeq_eq_reverse s hn
  exact ⟨fun k hk => iterSeq_getD hn hk, rfl, hrev,
    by rw [hrev]; exact List.reverse_perm s.packed⟩

/-- C6 witness: the three-element set `{3, 7, 9}` iterates `[9, 7, 3]`. -/
theorem c6_witness :
    iterSeq (emplace 4 (emplace 4 (emplace 4 emptySet 3) 7) 9) =
      (emplace 4 (emplace 4 (emplace 4 emptySet 3) 7) 9).packed.reverse :=
  (c6_theorem (emplace 4 (emplace 4 (emplace 4 emptySet 3) 7) 9) (by decide)).2.2.1

/-! ### Orbits of an injective self-map of `[0, n)`

The cycle walk of `sort_n` follows the permutation `π` mapping each new
packed position to the old position of the entity now stored there.  The
lemmas below provide periodicity and orbit arithmetic for such a map. -/

theorem iter_lt {π : Nat → Nat} {n : Nat} (hcl : ∀ x, x < n → π x < n) {x : Nat}
    (hx : x < n) : ∀ s, π^[s] x < n := by
  intro s
  induction s with
  | zero => simpa using hx
  | succ s ih =>
    rw [Function.iterate_succ_apply']
    exact hcl _ ih

theorem iter_peel {π : Nat → Nat} {n : Nat} (hcl : ∀ x, x < n → π x < n)
    (hinj : ∀ x y, x < n → y < n → π x = π y → x = y) {x : Nat} (hx : x < n) :
    ∀ a b, a ≤ b → π^[a] x = π^[b] x → π^[b - a] x = x := by
  intro a
  induction a with
  | zero =>
    intro b _ h
    rw [Nat.sub_zero, ← h]
    rfl
  | succ a ih =>
    intro b hab h
    rcases b with - | b
    · omega
    rw [Function.iterate_succ_apply', Function.iterate_succ_apply'] at h
    have := hinj _ _ (iter_lt hcl hx a) (iter_lt hcl hx b) h
    have hres := ih b (by omega) this
    rw [Nat.succ_sub_succ]
    exact hres

theorem exists_period {π : Nat → Nat} {n : Nat} (hcl : ∀ x, x < n → π x < n)
    (hinj : ∀ x y, x < n → y < n → π x = π y → x = y) {x : Nat} (hx : x < n) :
    ∃ m, 0 < m ∧ π^[m] x = x := by
  have hmap : ∀ a ∈ Finset.range (n + 1), π^[a] x ∈ Finset.range n := by
    intro a _
    rw [Finset.mem_range]
    exact iter_lt hcl hx a
  have hcard : (Finset.range n).card < (Finset.range (n + 1)).card := by
    rw [Finset.card_range, Finset.card_range]
    omega
  obtain ⟨a, ha, b, hb, hab, heq⟩ :=
    Finset.exists_ne_map_eq_of_card_lt_of_maps_to hcard hmap
  rcases Nat.lt_or_ge a b with hlt | hge
  · exact ⟨b - a, by omega, iter_peel hcl hinj hx a b (by omega) heq⟩
  · have hlt : b < a := by omega
    exact ⟨a - b, by omega, iter_peel hcl hinj hx b a (by omega) heq.symm⟩

theorem orbit_reduce {π : Nat → Nat} {p L : Nat} (hL : 0 < L) (hcyc : π^[L] p = p) :
    ∀ u, ∃ s, s < L ∧ π^[s] p = π^[u] p := by
  intro u
  induction u using Nat.strong_induction_on with
  | _ u ih =>
    rcases Nat.lt_or_ge u L with hu | hu
    · exact ⟨u, hu, rfl⟩
    · have h2 : π^[u] p = π^[u - L] p := by
        conv_lhs => rw [show u = u - L + L by omega]
        rw [Function.iterate_add_apply, hcyc]
      rw [h2]
      exact ih (u - L) (by omega)

theorem cycle_distinct {π : Nat → Nat} {n p L : Nat} (hcl : ∀ x, x < n → π x < n)
    (hinj : ∀ x y, x < n → y < n → π x = π y → x = y) (hp : p < n)
    (hLmin : ∀ m, 0 < m → m < L → π^[m] p ≠ p) :
    ∀ a b, a < L → b < L → π^[a] p = π^[b] p → a = b := by
  intro a b ha hb heq
  rcases Nat.lt_trichotomy a b with h | h | h
  · exfalso
    exact hLmin (b - a) (by omega) (by omega) (iter_peel hcl hinj hp a b (by omega) heq)
  · exact h
  · exfalso
    exact hLmin (a - b) (by omega) (by omega) (iter_peel hcl hinj hp b a (by omega) heq.symm)

/-! ### Applying a `swap_at` trace to a parallel array

A derived storage keeps a parallel array in lockstep by performing one swap
per `swap_at(i, j)` call.  `applySwaps` is that interpretation; the sort
theorem shows that the emitted trace, so interpreted, transforms the pre-sort
packed array into the post-sort packed array. -/

def applySwaps : List Hook → List Nat → List Nat
  | [], l => l
  | Hook.swapAt i j :: rest, l =>
    applySwaps rest ((l.set i (l.getD j 0)).set j (l.getD i 0))
  | _ :: rest, l => applySwaps rest l

theorem applySwaps_append (tr1 tr2 : List Hook) (l : List Nat) :
    applySwaps (tr1 ++ tr2) l = applySwaps tr2 (applySwaps tr1 l) := by
  induction tr1 generalizing l with
  | nil => rfl
  | cons h rest ih =>
    cases h with
    | swapAt i j => exact ih _
    | aboutToErase e => exact ih _
    | swapAndPop p => exact ih _

theorem applySwaps_length (tr : List Hook) (l : List Nat) :
    (applySwaps tr l).length = l.length := by
  induction tr generalizing l with
  | nil => rfl
  | cons h rest ih =>
    cases h with
    | swapAt i j => rw [applySwaps, ih, List.length_set, List.length_set]
    | aboutToErase e => exact ih l
    | swapAndPop p => exact ih l

theorem set_getD_self (l : List Nat) (i : Nat) : l.set i (l.getD i 0) = l := by
  rcases Nat.lt_or_ge i l.length with h | h
  · apply List.ext_getElem
    · rw [List.length_set]
    · intro k hk1 hk2
      by_cases hik : i = k
      · subst hik
        rw [List.getElem_set_self, List.getD_eq_getElem?_getD, List.getElem?_eq_getElem h]
        rfl
      · rw [List.getElem_set_ne hik]
  · exact getD_set_oob l _ h

theorem applySwaps_swap_self (tr : List Hook) (l : List Nat) (i : Nat) :
    applySwaps (Hook.swapAt i i :: tr) l = applySwaps tr l := by
  rw [applySwaps, set_getD_self, set_getD_self]

/-- The `swap_at` calls the cycle walk emits for one cycle, starting from its
inner step `t`: the transpositions `(π^[s] pos, π^[s+1] pos)` for
`s = t .. L-1`, followed by the one degenerate call `(pos, pos)` that closes
the cycle. -/
def cycTrace (π : Nat → Nat) (pos L t : Nat) : List Hook :=
  ((List.range (L - t)).map (fun j => Hook.swapAt (π^[t + j] pos) (π^[t + j + 1] pos))) ++
    [Hook.swapAt pos pos]

theorem cycTrace_succ (π : Nat → Nat) (pos L t : Nat) (h : t < L) :
    cycTrace π pos L t =
      Hook.swapAt (π^[t] pos) (π^[t + 1] pos) :: cycTrace π pos L (t + 1) := by
  unfold cycTrace
  rw [show L - t = (L - (t + 1)) + 1 by omega, List.range_succ_eq_map, List.map_cons]
  simp only [Nat.add_zero, List.map_map, List.cons_append]
  congr 2
  apply List.map_congr_left
  intro j _
  simp only [Function.comp_apply]
  congr 2 <;> omega

theorem applySwaps_cycTrace (pk : List Nat) (π : Nat → Nat) (pos L : Nat)
    (hpos_lt : ∀ s, π^[s] pos < pk.length)
    (hdist : ∀ a b, a < L → b < L → π^[a] pos = π^[b] pos → a = b)
    (hcyc : π^[L] pos = pos) (hL : 2 ≤ L) :
    ∀ t A, 1 ≤ t → t ≤ L → A.length = pk.length →
      A.getD (π^[t] pos) 0 = pk.getD (π^[1] pos) 0 →
      (∀ s, t < s → s ≤ L → A.getD (π^[s] pos) 0 = pk.getD (π^[s] pos) 0) →
      (∀ s, t ≤ s → s ≤ L - 1 →
        (applySwaps (cycTrace π pos L t) A).getD (π^[s] pos) 0 =
          pk.getD (π^[s + 1] pos) 0) ∧
      (applySwaps (cycTrace π pos L t) A).getD pos 0 = pk.getD (π^[1] pos) 0 ∧
      (∀ x, (∀ s, t ≤ s → s ≤ L → x ≠ π^[s] pos) →
        (applySwaps (cycTrace π pos L t) A).getD x 0 = A.getD x 0) ∧
      (applySwaps (cycTrace π pos L t) A).length = A.length := by
  have hdistL : ∀ a b, a < L → b < L → a ≠ b → π^[a] pos ≠ π^[b] pos := by
    intro a b ha hb hne heq
    exact hne (hdist a b ha hb heq)
  have hne_full : ∀ a b, a ≤ L → b ≤ L → a ≠ b → (a = L → b ≠ 0) → (b = L → a ≠ 0) →
      π^[a] pos ≠ π^[b] pos := by
    intro a b ha hb hne haL hbL heq
    rcases Nat.lt_or_ge a L with haL' | haL'
    · rcases Nat.lt_or_ge b L with hbL' | hbL'
      · exact hdistL a b haL' hbL' hne heq
      · have hbeq : b = L := by omega
        have heq0 : π^[a] pos = π^[0] pos := by
          rw [hbeq, hcyc] at heq
          simpa using heq
        have ha0 := hdist a 0 haL' (by omega) heq0
        exact hbL hbeq ha0
    · have haeq : a = L := by omega
      rcases Nat.lt_or_ge b L with hbL' | hbL'
      · have heq0 : π^[0] pos = π^[b] pos := by
          rw [haeq, hcyc] at heq
          simpa using heq
        have hb0 := hdist 0 b (by omega) hbL' heq0
        exact haL haeq hb0.symm
      · omega
  suffices hsuff : ∀ r t A, L - t = r → 1 ≤ t → t ≤ L → A.length = pk.length →
      A.getD (π^[t] pos) 0 = pk.getD (π^[1] pos) 0 →
      (∀ s, t < s → s ≤ L → A.getD (π^[s] pos) 0 = pk.getD (π^[s] pos) 0) →
      (∀ s, t ≤ s → s ≤ L - 1 →
        (applySwaps (cycTrace π pos L t) A).getD (π^[s] pos) 0 =
          pk.getD (π^[s + 1] pos) 0) ∧
      (applySwaps (cycTrace π pos L t) A).getD pos 0 = pk.getD (π^[1] pos) 0 ∧
      (∀ x, (∀ s, t ≤ s → s ≤ L → x ≠ π^[s] pos) →
        (applySwaps (cycTrace π pos L t) A).getD x 0 = A.getD x 0) ∧
      (applySwaps (cycTrace π pos L t) A).length = A.length by
    intro t A ht1 htL hlen hcarr hunt
    exact hsuff (L - t) t A rfl ht1 htL hlen hcarr hunt
  intro r
  induction r with
  | zero =>
    intro t A hrt ht1 htL hlen hcarr huntouched
    have htop : t = L := by omega
    have htr : cycTrace π pos L t = [Hook.swapAt pos pos] := by
      unfold cycTrace
      rw [htop, Nat.sub_self]
      rfl
    rw [htr, applySwaps_swap_self]
    refine ⟨?_, ?_, ?_, rfl⟩
    · intro s hs1 hs2
      omega
    · have hx : A.getD (π^[t] pos) 0 = pk.getD (π^[1] pos) 0 := hcarr
      rw [htop, hcyc] at hx
      exact hx
    · intro x _
      rfl
  | succ r ihr =>
    intro t A hrt ht1 htL hlen hcarr huntouched
    have htlt : t < L := by omega
    rw [cycTrace_succ π pos L t htlt]
    set A1 := ((A.set (π^[t] pos) (A.getD (π^[t + 1] pos) 0)).set (π^[t + 1] pos)
      (A.getD (π^[t] pos) 0)) with hA1
    have happ : applySwaps
        (Hook.swapAt (π^[t] pos) (π^[t + 1] pos) :: cycTrace π pos L (t + 1)) A =
        applySwaps (cycTrace π pos L (t + 1)) A1 := rfl
    have hne_t : π^[t] pos ≠ π^[t + 1] pos :=
      hne_full t (t + 1) (by omega) (by omega) (by omega) (by omega) (by omega)
    have hA1len : A1.length = pk.length := by
      rw [hA1, List.length_set, List.length_set, hlen]
    have hA1_t : A1.getD (π^[t] pos) 0 = pk.getD (π^[t + 1] pos) 0 := by
      rw [hA1, getD_set_ne _ _ _ hne_t.symm,
        getD_set_self _ _ _ _ (by rw [hlen]; exact hpos_lt t)]
      exact huntouched (t + 1) (by omega) (by omega)
    have hA1_t1 : A1.getD (π^[t + 1] pos) 0 = pk.getD (π^[1] pos) 0 := by
      rw [hA1, getD_set_self _ _ _ _ (by rw [List.length_set, hlen]; exact hpos_lt (t + 1))]
      exact hcarr
    have hA1_other : ∀ x, x ≠ π^[t] pos → x ≠ π^[t + 1] pos →
        A1.getD x 0 = A.getD x 0 := by
      intro x hx1 hx2
      rw [hA1, getD_set_ne _ _ _ (fun h => hx2 h.symm), getD_set_ne _ _ _ (fun h => hx1 h.symm)]
    obtain ⟨ihA, ihB, ihC, ihD⟩ := ihr (t + 1) A1 (by omega) (by omega) (by omega)
      hA1len hA1_t1
      (by
        intro s hs1 hs2
        rw [hA1_other _ (hne_full s t (by omega) (by omega) (by omega)
            (by omega) (by omega))
          (hne_full s (t + 1) (by omega) (by omega) (by omega) (by omega) (by omega))]
        exact huntouched s (by omega) hs2)
    rw [happ]
    refine ⟨?_, ihB, ?_, by rw [ihD, hA1len, hlen]⟩
    · intro s hs1 hs2
      rcases Nat.eq_or_lt_of_le hs1 with hst | hst
      · rw [← hst]
        rw [ihC (π^[t] pos)
          (by
            intro u hu1 hu2 heq
            exact hne_full t u (by omega) (by omega) (by omega) (by omega)
              (by omega) heq)]
        exact hA1_t
      · exact ihA s (by omega) hs2
    · intro x hx
      rw [ihC x (fun u hu1 hu2 => hx u (by omega) hu2),
        hA1_other x (hx t (by omega) (by omega)) (hx (t + 1) (by omega) (by omega))]

theorem walkInner_stop (P : Nat) (pk : List Nat) (fuel : Nat) (sp : Sparse) (x : Nat) :
    walkInner P pk fuel sp x x = (sp, []) := by
  cases fuel with
  | zero => rfl
  | succ f =>
    unfold walkInner
    rw [if_pos rfl]

theorem walkInner_succ (P : Nat) (pk : List Nat) (fuel : Nat) (sp : Sparse)
    {curr next : Nat} (h : curr ≠ next) :
    walkInner P pk (fuel + 1) sp curr next =
      ((walkInner P pk fuel (writeCellSp P sp (pk.getD curr 0) (curr % wordSize)) next
          (getCellSp P sp (pk.getD next 0))).1,
        Hook.swapAt next (getCellSp P sp (pk.getD next 0)) ::
          (walkInner P pk fuel (writeCellSp P sp (pk.getD curr 0) (curr % wordSize)) next
            (getCellSp P sp (pk.getD next 0))).2) := by
  conv_lhs => unfold walkInner
  rw [if_neg h]
  rfl

open Classical

/-- One full cycle of the `sort_n` walk, entered at inner step `t`: the walk
follows `π` around the cycle of `pos`, emits the `cycTrace` calls, rewrites
the sparse cell of every entity on the cycle to its new position, and touches
nothing else.  `D` marks the positions already fixed by earlier outer
iterations (whole earlier cycles), disjoint from the present cycle.  The
conditionals over propositions are read classically. -/
theorem walkInner_cycle (P : Nat) (hP : PageOK P) (N : List Nat) (π : Nat → Nat)
    (D : Nat → Prop) (pos L : Nat)
    (hmask : N.length ≤ entity_mask)
    (hkeyDist : ∀ x y, x < N.length → y < N.length →
      idxBits (N.getD x 0) = idxBits (N.getD y 0) → x = y)
    (hdist : ∀ a b, a < L → b < L → π^[a] pos = π^[b] pos → a = b)
    (hcyc : π^[L] pos = pos)
    (hlt : ∀ s, π^[s] pos < N.length)
    (hL : 2 ≤ L)
    (hD : ∀ s, ¬ D (π^[s] pos)) :
    ∀ r t sp fuel, L - t = r → 1 ≤ t → t ≤ L → L - t < fuel →
      pagesWF P sp →
      (∀ x, x < N.length → hasPage P sp (N.getD x 0)) →
      (∀ x, x < N.length → getCellSp P sp (N.getD x 0) =
        if D x ∨ (∃ s, s < t - 1 ∧ π^[s] pos = x) then x else π x) →
      (walkInner P N fuel sp (π^[t - 1] pos) (π^[t] pos)).2 = cycTrace π pos L t ∧
      pagesWF P (walkInner P N fuel sp (π^[t - 1] pos) (π^[t] pos)).1 ∧
      (∀ x, x < N.length →
        hasPage P (walkInner P N fuel sp (π^[t - 1] pos) (π^[t] pos)).1 (N.getD x 0)) ∧
      (∀ x, x < N.length →
        getCellSp P (walkInner P N fuel sp (π^[t - 1] pos) (π^[t] pos)).1 (N.getD x 0) =
          if D x ∨ (∃ s, s < L ∧ π^[s] pos = x) then x else π x) ∧
      (∀ e, (∀ s, s < L → idxBits e ≠ idxBits (N.getD (π^[s] pos) 0)) →
        getCellSp P (walkInner P N fuel sp (π^[t - 1] pos) (π^[t] pos)).1 e =
          getCellSp P sp e) := by
  have hword : N.length < wordSize := by
    unfold entity_mask at hmask
    unfold wordSize
    omega
  have hwrite : ∀ (sp : Sparse), pagesWF P sp →
      (∀ x, x < N.length → hasPage P sp (N.getD x 0)) →
      ∀ curr v x, curr < N.length → x < N.length →
        getCellSp P (writeCellSp P sp (N.getD curr 0) v) (N.getD x 0) =
          if x = curr then v else getCellSp P sp (N.getD x 0) := by
    intro sp hWF hpage curr v x hcurr hx
    by_cases hxc : x = curr
    · subst hxc
      rw [if_pos rfl]
      exact getCellSp_writeCellSp_self hP hWF (hpage x hx) v
    · rw [if_neg hxc]
      exact getCellSp_writeCellSp_ne hP sp
        (fun hk => hxc (hkeyDist x curr hx hcurr hk)) v
  intro r
  induction r with
  | zero =>
    intro t sp fuel hrt ht1 htL hfuel hWF hpage hcell
    have htop : t = L := by omega
    have hcne : π^[t - 1] pos ≠ π^[t] pos := by
      intro heq
      have := hdist (t - 1) 0 (by omega) (by omega)
        (by rw [heq, htop, hcyc]; simp)
      omega
    rcases fuel with - | f
    · omega
    rw [walkInner_succ P N f sp hcne]
    have hidx : getCellSp P sp (N.getD (π^[t] pos) 0) = pos := by
      have hpix : π^[t] pos = pos := by rw [htop, hcyc]
      have hx := hcell pos (by simpa using hlt 0)
      rw [hpix, hx, if_pos (Or.inr ⟨0, by omega, by simp⟩)]
    have hpt : π^[t] pos = pos := by rw [htop, hcyc]
    have hmod : π^[t - 1] pos % wordSize = π^[t - 1] pos :=
      Nat.mod_eq_of_lt (by have := hlt (t - 1); omega)
    rw [hidx, hpt, walkInner_stop]
    have htr : cycTrace π pos L t = [Hook.swapAt pos pos] := by
      unfold cycTrace
      rw [htop, Nat.sub_self]
      rfl
    set sp1 := writeCellSp P sp (N.getD (π^[t - 1] pos) 0) (π^[t - 1] pos % wordSize)
      with hsp1
    refine ⟨by rw [htr], pagesWF_writeCellSp hWF _ _, ?_, ?_, ?_⟩
    · intro x hx
      exact (hasPage_writeCellSp _ _ _ _).mpr (hpage x hx)
    · intro x hx
      rw [hwrite sp hWF hpage _ _ x (hlt (t - 1)) hx, hmod]
      by_cases hxc : x = π^[t - 1] pos
      · rw [if_pos hxc, if_pos (Or.inr ⟨t - 1, by omega, hxc.symm⟩), hxc]
      · rw [if_neg hxc, hcell x hx]
        congr 1
        apply propext
        constructor
        · rintro (hDx | ⟨s, hs, hsx⟩)
          · exact Or.inl hDx
          · exact Or.inr ⟨s, by omega, hsx⟩
        · rintro (hDx | ⟨s, hs, hsx⟩)
          · exact Or.inl hDx
          · refine Or.inr ⟨s, ?_, hsx⟩
            rcases Nat.lt_or_ge s (t - 1) with h | h
            · exact h
            · exfalso
              have hseq : s = t - 1 := by omega
              exact hxc (by rw [← hsx, hseq])
    · intro e he
      exact getCellSp_writeCellSp_ne hP sp (he (t - 1) (by omega)) _
  | succ r ihr =>
    intro t sp fuel hrt ht1 htL hfuel hWF hpage hcell
    have htlt : t < L := by omega
    have hcne : π^[t - 1] pos ≠ π^[t] pos := by
      intro heq
      have := hdist (t - 1) t (by omega) (by omega) heq
      omega
    rcases fuel with - | f
    · omega
    rw [walkInner_succ P N f sp hcne]
    have hidx : getCellSp P sp (N.getD (π^[t] pos) 0) = π^[t + 1] pos := by
      have hx := hcell (π^[t] pos) (hlt t)
      rw [hx, if_neg, ← Function.iterate_succ_apply' π t pos]
      rintro (hDx | ⟨s, hs, hsx⟩)
      · exact hD t hDx
      · have := hdist s t (by omega) (by omega) hsx
        omega
    have hmod : π^[t - 1] pos % wordSize = π^[t - 1] pos :=
      Nat.mod_eq_of_lt (by have := hlt (t - 1); omega)
    rw [hidx]
    set sp1 := writeCellSp P sp (N.getD (π^[t - 1] pos) 0) (π^[t - 1] pos % wordSize)
      with hsp1
    have hcell1 : ∀ x, x < N.length → getCellSp P sp1 (N.getD x 0) =
        if D x ∨ (∃ s, s < (t + 1) - 1 ∧ π^[s] pos = x) then x else π x := by
      intro x hx
      rw [hsp1, hwrite sp hWF hpage _ _ x (hlt (t - 1)) hx, hmod]
      by_cases hxc : x = π^[t - 1] pos
      · rw [if_pos hxc, if_pos (Or.inr ⟨t - 1, by omega, hxc.symm⟩), hxc]
      · rw [if_neg hxc, hcell x hx]
        congr 1
        apply propext
        constructor
        · rintro (hDx | ⟨s, hs, hsx⟩)
          · exact Or.inl hDx
          · exact Or.inr ⟨s, by omega, hsx⟩
        · rintro (hDx | ⟨s, hs, hsx⟩)
          · exact Or.inl hDx
          · refine Or.inr ⟨s, ?_, hsx⟩
            rcases Nat.lt_or_ge s (t - 1) with h | h
            · exact h
            · exfalso
              have hseq : s = t - 1 := by omega
              exact hxc (by rw [← hsx, hseq])
    have hstep : π^[(t + 1) - 1] pos = π^[t] pos := by
      norm_num
    obtain ⟨ih1, ih2, ih3, ih4, ih5⟩ := ihr (t + 1) sp1 f (by omega) (by omega) (by omega)
      (by omega)
      (pagesWF_writeCellSp hWF _ _)
      (by
        intro x hx
        rw [hsp1]
        exact (hasPage_writeCellSp _ _ _ _).mpr (hpage x hx))
      hcell1
    rw [hstep] at ih1 ih2 ih3 ih4 ih5
    refine ⟨?_, ih2, ih3, ?_, ?_⟩
    · rw [ih1, cycTrace_succ π pos L t htlt]
    · intro x hx
      rw [ih4 x hx]
    · intro e he
      rw [ih5 e he, hsp1, getCellSp_writeCellSp_ne hP sp (he (t - 1) (by omega)) _]

theorem orbit_mem_iff {π : Nat → Nat} {n : Nat} (hcl : ∀ x, x < n → π x < n)
    (hinj : ∀ x y, x < n → y < n → π x = π y → x = y) {p x : Nat}
    (hx : x < n) {L : Nat} (hL0 : 0 < L) (hcyc : π^[L] p = p) :
    (∃ s, π^[s] x = p) ↔ (∃ s, s < L ∧ π^[s] p = x) := by
  constructor
  · rintro ⟨s, hs⟩
    obtain ⟨m, hm0, hmper⟩ := exists_period hcl hinj hx
    have hkey : π^[m - s % m] p = x := by
      rw [← hs, ← Function.iterate_add_apply]
      have hdecomp : m - s % m + s = m * (s / m) + m := by
        have h1 := Nat.div_add_mod s m
        have hlt := Nat.mod_lt s hm0
        omega
      have h2 : m * (s / m) + m = (s / m + 1) * m := by ring
      rw [hdecomp, h2]
      have hq : ∀ q, π^[q * m] x = x := by
        intro q
        induction q with
        | zero => simp
        | succ q ihq =>
          rw [Nat.succ_mul, Function.iterate_add_apply, hmper, ihq]
      exact hq (s / m + 1)
    obtain ⟨u, hu, hueq⟩ := orbit_reduce hL0 hcyc (m - s % m)
    exact ⟨u, hu, by rw [hueq, hkey]⟩
  · rintro ⟨s, hsL, hs⟩
    refine ⟨L - s, ?_⟩
    rw [← hs, ← Function.iterate_add_apply, show L - s + s = L by omega, hcyc]

theorem fixed_orbit {π : Nat → Nat} {n : Nat}
    (hinj : ∀ x y, x < n → y < n → π x = π y → x = y) {p : Nat} (hp : p < n)
    (hfix : π p = p) {x : Nat} (hx : x < n) (hcl : ∀ x, x < n → π x < n) :
    ∀ s, π^[s] x = p → x = p := by
  intro s
  induction s with
  | zero => exact fun h => h
  | succ s ih =>
    intro h
    rw [Function.iterate_succ_apply'] at h
    have : π^[s] x = p := by
      have hlt : π^[s] x < n := iter_lt hcl hx s
      have : π (π^[s] x) = π p := by rw [h, hfix]
      exact hinj _ _ hlt hp this
    exact ih this

theorem cycle_length_le {π : Nat → Nat} {n p L : Nat}
    (hlt : ∀ s, π^[s] p < n)
    (hdist : ∀ a b, a < L → b < L → π^[a] p = π^[b] p → a = b) : L ≤ n := by
  have h := Finset.card_le_card_of_injOn (fun s => π^[s] p)
    (fun s hs => Finset.mem_range.mpr (hlt s))
    (fun a ha b hb hab =>
      hdist a b (Finset.mem_range.mp ha) (Finset.mem_range.mp hb) hab)
  simpa using h

theorem walkList_nil (P : Nat) (pk : List Nat) (sp : Sparse) :
    walkList P pk sp [] = (sp, []) := rfl

theorem walkList_cons (P : Nat) (pk : List Nat) (sp : Sparse) (pos : Nat)
    (rest : List Nat) :
    walkList P pk sp (pos :: rest) =
      ((walkList P pk (walkPos P pk sp pos).1 rest).1,
        (walkPos P pk sp pos).2 ++ (walkList P pk (walkPos P pk sp pos).1 rest).2) := rfl

theorem walkPos_stop (P : Nat) (pk : List Nat) (sp : Sparse) (pos : Nat)
    (h : getCellSp P sp (pk.getD pos 0) = pos) : walkPos P pk sp pos = (sp, []) := by
  unfold walkPos toIntegral
  rw [h]
  exact walkInner_stop P pk _ sp pos

/-- The outer loop of the cycle walk, from position `p` over the next `k`
positions: cells of entities whose orbit meets `[0, p + k)` point at their new
position, the others still at their old one; the accumulated `swap_at` trace,
applied as swaps to any array that already agrees with the new packed array
on the processed region and with the old packed array elsewhere, extends that
agreement to `[0, p + k)`. -/
theorem walkList_spec (P : Nat) (hP : PageOK P) (N pk : List Nat) (π : Nat → Nat)
    (hmask : N.length ≤ entity_mask)
    (hkeyDist : ∀ x y, x < N.length → y < N.length →
      idxBits (N.getD x 0) = idxBits (N.getD y 0) → x = y)
    (hcl : ∀ x, x < N.length → π x < N.length)
    (hinj : ∀ x y, x < N.length → y < N.length → π x = π y → x = y)
    (hπpk : ∀ x, x < N.length → pk.getD (π x) 0 = N.getD x 0)
    (hpklen : pk.length = N.length) :
    ∀ k p sp, p + k ≤ N.length →
      pagesWF P sp →
      (∀ x, x < N.length → hasPage P sp (N.getD x 0)) →
      (∀ x, x < N.length → getCellSp P sp (N.getD x 0) =
        if ∃ s, π^[s] x < p then x else π x) →
      pagesWF P (walkList P N sp (List.range' p k)).1 ∧
      (∀ x, x < N.length →
        hasPage P (walkList P N sp (List.range' p k)).1 (N.getD x 0)) ∧
      (∀ x, x < N.length →
        getCellSp P (walkList P N sp (List.range' p k)).1 (N.getD x 0) =
          if ∃ s, π^[s] x < p + k then x else π x) ∧
      (∀ e, (∀ x, x < N.length → idxBits e ≠ idxBits (N.getD x 0)) →
        getCellSp P (walkList P N sp (List.range' p k)).1 e = getCellSp P sp e) ∧
      (∀ A, A.length = N.length →
        (∀ x, x < N.length →
          A.getD x 0 = if ∃ s, π^[s] x < p then N.getD x 0 else pk.getD x 0) →
        (applySwaps (walkList P N sp (List.range' p k)).2 A).length = A.length ∧
        (∀ x, x < N.length →
          (applySwaps (walkList P N sp (List.range' p k)).2 A).getD x 0 =
            if ∃ s, π^[s] x < p + k then N.getD x 0 else pk.getD x 0)) := by
  intro k
  induction k with
  | zero =>
    intro p sp hpk hWF hpage hcell
    refine ⟨hWF, hpage, ?_, fun e _ => rfl, ?_⟩
    · intro x hx
      rw [Nat.add_zero]
      exact hcell x hx
    · intro A hAlen hA
      refine ⟨rfl, ?_⟩
      intro x hx
      rw [Nat.add_zero]
      exact hA x hx
  | succ k ihk =>
    intro p sp hpk hWF hpage hcell
    have hpn : p < N.length := by omega
    have harith : p + 1 + k = p + (k + 1) := by omega
    rw [List.range'_succ, walkList_cons]
    by_cases hcaseA : ∃ s, π^[s] p < p
    · -- the position belongs to an orbit already fixed by an earlier iteration
      have hcellp : getCellSp P sp (N.getD p 0) = p := by
        rw [hcell p hpn, if_pos hcaseA]
      rw [walkPos_stop P N sp p hcellp]
      have hcondiff : ∀ x, (∃ s, π^[s] x < p + 1) ↔ (∃ s, π^[s] x < p) := by
        intro x
        constructor
        · rintro ⟨s, hs⟩
          rcases Nat.lt_or_ge (π^[s] x) p with h | h
          · exact ⟨s, h⟩
          · have hxp : π^[s] x = p := by omega
            obtain ⟨u, hu⟩ := hcaseA
            refine ⟨u + s, ?_⟩
            rw [Function.iterate_add_apply, hxp]
            exact hu
        · rintro ⟨s, hs⟩
          exact ⟨s, by omega⟩
      obtain ⟨ih1, ih2, ih3, ih4, ih5⟩ := ihk (p + 1) sp (by omega) hWF hpage
        (by
          intro x hx
          rw [hcell x hx]
          congr 1
          exact propext (hcondiff x).symm)
      refine ⟨ih1, ih2, ?_, ih4, ?_⟩
      · intro x hx
        have h3 := ih3 x hx
        rw [harith] at h3
        exact h3
      · intro A hAlen hA
        obtain ⟨ihl, ihv⟩ := ih5 A hAlen
          (by
            intro x hx
            rw [hA x hx]
            congr 1
            exact propext (hcondiff x).symm)
        rw [List.nil_append]
        refine ⟨ihl, ?_⟩
        intro x hx
        have hv := ihv x hx
        rw [harith] at hv
        exact hv
    · by_cases hfix : π p = p
      · -- a fixed point of the permutation: nothing to do
        have hcellp : getCellSp P sp (N.getD p 0) = p := by
          rw [hcell p hpn, if_neg hcaseA, hfix]
        rw [walkPos_stop P N sp p hcellp]
        have hp1 : ∃ s, π^[s] p < p + 1 := ⟨0, by simp⟩
        have hNp : pk.getD p 0 = N.getD p 0 := by
          have h := hπpk p hpn
          rw [hfix] at h
          exact h
        have hcondiff : ∀ x, x < N.length →
            ((∃ s, π^[s] x < p + 1) ↔ (∃ s, π^[s] x < p) ∨ x = p) := by
          intro x hx
          constructor
          · rintro ⟨s, hs⟩
            rcases Nat.lt_or_ge (π^[s] x) p with h | h
            · exact Or.inl ⟨s, h⟩
            · have hxp : π^[s] x = p := by omega
              exact Or.inr (fixed_orbit hinj hpn hfix hx hcl s hxp)
          · rintro (⟨s, hs⟩ | hxp)
            · exact ⟨s, by omega⟩
            · subst hxp
              exact hp1
        obtain ⟨ih1, ih2, ih3, ih4, ih5⟩ := ihk (p + 1) sp (by omega) hWF hpage
          (by
            intro x hx
            by_cases hxp : x = p
            · subst hxp
              rw [hcell x hx, if_neg hcaseA, hfix, if_pos hp1]
            · rw [hcell x hx]
              congr 1
              apply propext
              rw [hcondiff x hx]
              constructor
              · exact Or.inl
              · rintro (h | h)
                · exact h
                · exact absurd h hxp)
        refine ⟨ih1, ih2, ?_, ih4, ?_⟩
        · intro x hx
          have h3 := ih3 x hx
          rw [harith] at h3
          exact h3
        · intro A hAlen hA
          obtain ⟨ihl, ihv⟩ := ih5 A hAlen
            (by
              intro x hx
              by_cases hxp : x = p
              · subst hxp
                rw [hA x hx, if_neg hcaseA, if_pos hp1, hNp]
              · rw [hA x hx]
                congr 1
                apply propext
                rw [hcondiff x hx]
                constructor
                · exact Or.inl
                · rintro (h | h)
                  · exact h
                  · exact absurd h hxp)
          rw [List.nil_append]
          refine ⟨ihl, ?_⟩
          intro x hx
          have hv := ihv x hx
          rw [harith] at hv
          exact hv
      · -- a fresh, nontrivial cycle
        have hex : ∃ m, 0 < m ∧ π^[m] p = p := exists_period hcl hinj hpn
        obtain ⟨L, hLdef⟩ : ∃ L, L = Nat.find hex := ⟨_, rfl⟩
        have hspec := Nat.find_spec hex
        rw [← hLdef] at hspec
        obtain ⟨hL0, hcyc⟩ := hspec
        have hLmin : ∀ m, 0 < m → m < L → π^[m] p ≠ p := by
          intro m hm0 hmL heq
          exact Nat.find_min hex (hLdef ▸ hmL) ⟨hm0, heq⟩
        have hL2 : 2 ≤ L := by
          rcases Nat.lt_or_ge L 2 with h | h
          · exfalso
            have h1 : L = 1 := by omega
            rw [h1, Function.iterate_one] at hcyc
            exact hfix hcyc
          · exact h
        have hdist := cycle_distinct hcl hinj hpn hLmin
        have hltπ : ∀ s, π^[s] p < N.length := iter_lt hcl hpn
        have hLn : L ≤ N.length := cycle_length_le hltπ hdist
        have hD : ∀ s, ¬ (∃ u, π^[u] (π^[s] p) < p) := by
          rintro s ⟨u, hu⟩
          rw [← Function.iterate_add_apply] at hu
          exact hcaseA ⟨u + s, hu⟩
        obtain ⟨w1, w2, w3, w4, w5⟩ := walkInner_cycle P hP N π
          (fun x => ∃ s, π^[s] x < p) p L hmask hkeyDist hdist hcyc hltπ hL2 hD
          (L - 1) 1 sp (N.length + 1) rfl (by omega) (by omega) (by omega) hWF hpage
          (by
            intro x hx
            rw [hcell x hx]
            congr 1
            apply propext
            constructor
            · exact Or.inl
            · rintro (h | ⟨s, hs, -⟩)
              · exact h
              · omega)
        have hwalkpos : walkPos P N sp p =
            walkInner P N (N.length + 1) sp (π^[0] p) (π^[1] p) := by
          unfold walkPos toIntegral
          have hcellp : getCellSp P sp (N.getD p 0) = π p := by
            rw [hcell p hpn, if_neg hcaseA]
          rw [hcellp]
          rfl
        rw [hwalkpos]
        have honcycle : ∀ x, x < N.length →
            ((∃ s, π^[s] x < p + 1) ↔
              (∃ s, π^[s] x < p) ∨ (∃ s, s < L ∧ π^[s] p = x)) := by
          intro x hx
          rw [← orbit_mem_iff hcl hinj hx hL0 hcyc]
          constructor
          · rintro ⟨s, hs⟩
            rcases Nat.lt_or_ge (π^[s] x) p with h | h
            · exact Or.inl ⟨s, h⟩
            · exact Or.inr ⟨s, by omega⟩
          · rintro (⟨s, hs⟩ | ⟨s, hs⟩)
            · exact ⟨s, by omega⟩
            · exact ⟨s, by omega⟩
        obtain ⟨ih1, ih2, ih3, ih4, ih5⟩ := ihk (p + 1)
          (walkInner P N (N.length + 1) sp (π^[0] p) (π^[1] p)).1 (by omega) w2 w3
          (by
            intro x hx
            rw [w4 x hx]
            congr 1
            exact propext (honcycle x hx).symm)
        refine ⟨ih1, ih2, ?_, ?_, ?_⟩
        · intro x hx
          have h3 := ih3 x hx
          rw [harith] at h3
          exact h3
        · intro e he
          rw [ih4 e he, w5 e (fun s _ => he (π^[s] p) (hltπ s))]
        · intro A hAlen hA
          rw [w1, applySwaps_append]
          have hpos_lt : ∀ s, π^[s] p < pk.length := by
            intro s
            rw [hpklen]
            exact hltπ s
          obtain ⟨cy1, cy2, cy3, cy4⟩ := applySwaps_cycTrace pk π p L hpos_lt hdist hcyc
            hL2 1 A (by omega) (by omega) (by rw [hAlen, hpklen])
            (by rw [hA (π^[1] p) (hltπ 1), if_neg (hD 1)])
            (by
              intro s hs1 hs2
              rw [hA (π^[s] p) (hltπ s), if_neg (hD s)])
          set A1 := applySwaps (cycTrace π p L 1) A with hA1def
          have hA1 : ∀ x, x < N.length →
              A1.getD x 0 = if ∃ s, π^[s] x < p + 1 then N.getD x 0 else pk.getD x 0 := by
            intro x hx
            by_cases hxcyc : ∃ s, s < L ∧ π^[s] p = x
            · obtain ⟨s, hsL, hsx⟩ := hxcyc
              rw [if_pos ((honcycle x hx).mpr (Or.inr ⟨s, hsL, hsx⟩))]
              rcases Nat.eq_zero_or_pos s with hs0 | hs0
              · have hxp : x = p := by rw [← hsx, hs0]; simp
                rw [hxp, cy2, Function.iterate_one, hπpk p hpn]
              · have hval := cy1 s (by omega) (by omega)
                rw [hsx] at hval
                rw [hval, Function.iterate_succ_apply', hsx, hπpk x hx]
            · have hxoff : ∀ s, 1 ≤ s → s ≤ L → x ≠ π^[s] p := by
                intro s hs1 hsL heq
                rcases Nat.eq_or_lt_of_le hsL with hseq | hslt
                · rw [hseq, hcyc] at heq
                  exact hxcyc ⟨0, by omega, by simpa using heq.symm⟩
                · exact hxcyc ⟨s, by omega, heq.symm⟩
              rw [cy3 x hxoff, hA x hx]
              congr 1
              apply propext
              rw [honcycle x hx]
              constructor
              · exact Or.inl
              · rintro (h | h)
                · exact h
                · exact absurd h hxcyc
          obtain ⟨ihl, ihv⟩ := ih5 A1 (by rw [hA1def, cy4, hAlen]) hA1
          refine ⟨?_, ?_⟩
          · rw [ihl, hA1def, cy4]
          · intro x hx
            have hv := ihv x hx
            rw [harith] at hv
            exact hv

/-! ### Assembling the sort theorem -/

theorem sortedPacked_perm (cmp : Nat → Nat → Bool) (pk : List Nat) :
    (sortedPacked cmp pk).Perm pk := by
  unfold sortedPacked
  have h1 : ((List.insertionSort (fun a b => (!(cmp b a)) = true) pk.reverse).reverse).Perm
      (List.insertionSort (fun a b => (!(cmp b a)) = true) pk.reverse) :=
    List.reverse_perm _
  have h2 := List.perm_insertionSort (fun a b => (!(cmp b a)) = true) pk.reverse
  have h3 : pk.reverse.Perm pk := List.reverse_perm pk
  exact (h1.trans h2).trans h3

theorem sortedPacked_length (cmp : Nat → Nat → Bool) (pk : List Nat) :
    (sortedPacked cmp pk).length = pk.length :=
  (sortedPacked_perm cmp pk).length_eq

theorem sortedPacked_rev_pairwise (cmp : Nat → Nat → Bool)
    (hasym : ∀ a b, cmp a b = true → cmp b a = false)
    (htrans : ∀ a b c, cmp b a = false → cmp c b = false → cmp c a = false)
    (pk : List Nat) :
    List.Pairwise (fun a b => (!(cmp b a)) = true) ((sortedPacked cmp pk).reverse) := by
  unfold sortedPacked
  rw [List.reverse_reverse]
  haveI htotal : IsTotal Nat (fun a b => (!(cmp b a)) = true) := by
    constructor
    intro a b
    rcases hab : cmp b a with - | -
    · left
      simp [hab]
    · right
      have := hasym b a hab
      simp [this]
  haveI htr : IsTrans Nat (fun a b => (!(cmp b a)) = true) := by
    constructor
    intro a b c hab hbc
    simp only [Bool.not_eq_true'] at hab hbc ⊢
    exact htrans a b c hab hbc
  exact List.sorted_insertionSort _ _

theorem pairwise_consecutive {R : Nat → Nat → Prop} {l : List Nat}
    (h : List.Pairwise R l) {j : Nat} (hj : j + 1 < l.length) :
    R (l.getD j 0) (l.getD (j + 1) 0) := by
  rw [List.getD_eq_getElem?_getD, List.getElem?_eq_getElem (by omega),
    List.getD_eq_getElem?_getD, List.getElem?_eq_getElem hj]
  exact List.pairwise_iff_getElem.mp h j (j + 1) (by omega) hj (by omega)

theorem keys_nodup {P : Nat} (hP : PageOK P) {s : SparseSet} (hI : Inv P s) :
    (s.packed.map idxBits).Nodup := by
  rw [List.nodup_iff_injective_getElem]
  intro a b hab
  obtain ⟨i, hi⟩ := a
  obtain ⟨j, hj⟩ := b
  simp only [List.getElem_map] at hab
  apply Fin.ext
  show i = j
  have hi' : i < s.packed.length := by simpa using hi
  have hj' : j < s.packed.length := by simpa using hj
  apply keys_inj hP hI hi' hj'
  rw [List.getD_eq_getElem?_getD, List.getElem?_eq_getElem hi',
    List.getD_eq_getElem?_getD, List.getElem?_eq_getElem hj']
  simpa using hab

theorem keyDist_of_nodup {l : List Nat} (h : (l.map idxBits).Nodup) :
    ∀ x y, x < l.length → y < l.length →
      idxBits (l.getD x 0) = idxBits (l.getD y 0) → x = y := by
  intro x y hx hy hkey
  rw [List.nodup_iff_injective_getElem] at h
  have hx' : x < (l.map idxBits).length := by rw [List.length_map]; exact hx
  have hy' : y < (l.map idxBits).length := by rw [List.length_map]; exact hy
  have h2 : (⟨x, hx'⟩ : Fin (l.map idxBits).length) = ⟨y, hy'⟩ := by
    apply h
    simp only [List.getElem_map]
    rw [List.getD_eq_getElem?_getD, List.getElem?_eq_getElem hx,
      List.getD_eq_getElem?_getD, List.getElem?_eq_getElem hy] at hkey
    simpa using hkey
  simpa using h2

theorem getD_eq_of_getElem {l : List Nat} {i : Nat} (h : i < l.length) :
    l.getD i 0 = l[i] := by
  rw [List.getD_eq_getElem?_getD, List.getElem?_eq_getElem h]
  rfl

/-- C4 (amended).  For every set satisfying the primary invariant and every
strict-weak-order comparison `cmp` (given through asymmetry and negative
transitivity), after `sort(cmp)` with the default algorithm: iterating
`begin() .. end()` yields a sequence `s` with `cmp(s[i+1], s[i]) = false` for
every consecutive pair; the multiset of packed entries is unchanged; every
live entity's sparse cell encodes its packed position again (and the whole
primary invariant holds); and the `swap_at` calls emitted by the cycle walk,
applied in order as transpositions to the pre-sort packed array, reproduce
the post-sort packed array.  (As frozen the claim says `swap_at` is called
"exactly once per transposition applied to the packed array during the cycle
walk"; the walk never transposes the packed array — `algo` already sorted
it — and it closes every nontrivial cycle with one extra degenerate
`swap_at(pos, pos)` call, so that count is wrong; see the counterexample.) -/
theorem c4_theorem (P : Nat) (hP : PageOK P) (s : SparseSet) (cmp : Nat → Nat → Bool)
    (hI : Inv P s)
    (hasym : ∀ a b, cmp a b = true → cmp b a = false)
    (htrans : ∀ a b c, cmp b a = false → cmp c b = false → cmp c a = false) :
    (∀ j, j + 1 < (iterSeq (sortOp P s cmp)).length →
      cmp ((iterSeq (sortOp P s cmp)).getD (j + 1) 0)
        ((iterSeq (sortOp P s cmp)).getD j 0) = false) ∧
    (sortOp P s cmp).packed.Perm s.packed ∧
    (∀ i, i < (sortOp P s cmp).packed.length →
      getCellSp P (sortOp P s cmp).sparse ((sortOp P s cmp).packed.getD i 0) = i) ∧
    Inv P (sortOp P s cmp) ∧
    applySwaps (sortWithHooks P s cmp).2 s.packed = (sortOp P s cmp).packed := by
  set N := sortedPacked cmp s.packed with hN
  have hperm : N.Perm s.packed := sortedPacked_perm cmp s.packed
  have hlen : N.length = s.packed.length := sortedPacked_length cmp s.packed
  have hNodupN : (N.map idxBits).Nodup :=
    ((hperm.map idxBits).nodup_iff).mpr (keys_nodup hP hI)
  have hkeyDistN := keyDist_of_nodup hNodupN
  have hmaskN : N.length ≤ entity_mask := by rw [hlen]; exact hI.2.1
  set π := fun x => getCellSp P s.sparse (N.getD x 0) with hπdef
  have hπ : ∀ x, x < N.length →
      π x < s.packed.length ∧ s.packed.getD (π x) 0 = N.getD x 0 := by
    intro x hx
    have hmemN : N.getD x 0 ∈ N := by
      rw [getD_eq_of_getElem hx]
      exact List.getElem_mem _
    have hmem : N.getD x 0 ∈ s.packed := hperm.mem_iff.mp hmemN
    obtain ⟨i, hi, hieq⟩ := List.getElem_of_mem hmem
    have hgd : s.packed.getD i 0 = N.getD x 0 := by
      rw [getD_eq_of_getElem hi, hieq]
    have hcelli := hI.2.2.1 i hi
    rw [hgd] at hcelli
    have hπx : π x = i := hcelli
    rw [hπx]
    exact ⟨hi, hgd⟩
  have hcl : ∀ x, x < N.length → π x < N.length := by
    intro x hx
    rw [hlen]
    exact (hπ x hx).1
  have hπpk : ∀ x, x < N.length → s.packed.getD (π x) 0 = N.getD x 0 :=
    fun x hx => (hπ x hx).2
  have hinjπ : ∀ x y, x < N.length → y < N.length → π x = π y → x = y := by
    intro x y hx hy hxy
    apply hkeyDistN x y hx hy
    have h1 := hπpk x hx
    have h2 := hπpk y hy
    rw [← h1, ← h2, hxy]
  have hhasPage0 : ∀ x, x < N.length → hasPage P s.sparse (N.getD x 0) := by
    intro x hx
    apply hasPage_of_not_null
    show eqNull (π x) = false
    have hπlt : π x < entity_mask := by
      have h1 := (hπ x hx).1
      have h2 := hI.2.1
      omega
    exact eqNull_false_of_lt hπlt
  have hcell0 : ∀ x, x < N.length → getCellSp P s.sparse (N.getD x 0) =
      if ∃ u, π^[u] x < 0 then x else π x := by
    intro x hx
    rw [if_neg (by rintro ⟨u, hu⟩; omega)]
  obtain ⟨W1, W2, W3, W4, W5⟩ := walkList_spec P hP N s.packed π hmaskN hkeyDistN hcl
    hinjπ hπpk hlen.symm N.length 0 s.sparse (by omega) hI.1 hhasPage0 hcell0
  have hrange : List.range N.length = List.range' 0 N.length := List.range_eq_range' _
  have hpacked : (sortOp P s cmp).packed = N := rfl
  have hsparse : (sortOp P s cmp).sparse =
      (walkList P N s.sparse (List.range' 0 N.length)).1 := by
    rw [← hrange]
    rfl
  have htrace : (sortWithHooks P s cmp).2 =
      (walkList P N s.sparse (List.range' 0 N.length)).2 := by
    rw [← hrange]
    rfl
  have hcells : ∀ i, i < (sortOp P s cmp).packed.length →
      getCellSp P (sortOp P s cmp).sparse ((sortOp P s cmp).packed.getD i 0) = i := by
    intro i hi
    rw [hpacked] at hi ⊢
    rw [hsparse, W3 i hi, if_pos ⟨0, by simpa using hi⟩]
  have hn64 : (sortOp P s cmp).packed.length < 2 ^ 64 := by
    rw [hpacked, hlen]
    have := hI.2.1
    unfold entity_mask at this
    omega
  refine ⟨?_, by rw [hpacked]; exact hperm, hcells, ?_, ?_⟩
  · -- ascending iteration under cmp
    have hiter : iterSeq (sortOp P s cmp) = N.reverse := by
      rw [iterSeq_eq_reverse _ hn64, hpacked]
    have hpw := sortedPacked_rev_pairwise cmp hasym htrans s.packed
    rw [← hN] at hpw
    intro j hj
    rw [hiter] at hj ⊢
    have := pairwise_consecutive hpw hj
    simpa using this
  · -- the primary invariant holds for the sorted state
    refine ⟨by rw [hsparse]; exact W1, by rw [hpacked]; exact hmaskN, hcells, ?_⟩
    intro e he
    by_cases hkey : ∃ x, x < N.length ∧ idxBits (N.getD x 0) = idxBits e
    · obtain ⟨x, hx, hkx⟩ := hkey
      have hcx : getCellSp P (sortOp P s cmp).sparse e =
          getCellSp P (sortOp P s cmp).sparse (N.getD x 0) :=
        (getCellSp_congr hP _ hkx).symm
      have hval : getCellSp P (sortOp P s cmp).sparse (N.getD x 0) = x := by
        rw [hsparse, W3 x hx, if_pos ⟨0, by simpa using hx⟩]
      rw [hcx, hval]
      refine ⟨by rw [hpacked]; exact hx, ?_⟩
      rw [hpacked]
      exact hkx
    · exfalso
      have hne : ∀ x, x < N.length → idxBits e ≠ idxBits (N.getD x 0) := by
        intro x hx hk
        exact hkey ⟨x, hx, hk.symm⟩
      rw [hsparse] at he
      rw [W4 e hne] at he
      obtain ⟨hv, hvk⟩ := hI.2.2.2 e he
      have hmem : s.packed.getD (getCellSp P s.sparse e) 0 ∈ N := by
        apply hperm.mem_iff.mpr
        rw [getD_eq_of_getElem hv]
        exact List.getElem_mem _
      obtain ⟨x, hx, hxeq⟩ := List.getElem_of_mem hmem
      refine hkey ⟨x, hx, ?_⟩
      rw [getD_eq_of_getElem hx, hxeq, hvk]
  · -- the swap trace transmits the permutation to a parallel array
    obtain ⟨hAl, hAv⟩ := W5 s.packed hlen.symm
      (by
        intro x hx
        rw [if_neg (by rintro ⟨u, hu⟩; omega)])
    rw [htrace, hpacked]
    apply List.ext_getElem
    · rw [applySwaps_length, hlen]
    · intro k hk1 hk2
      have hkN : k < N.length := hk2
      have hv := hAv k hkN
      rw [if_pos ⟨0, by simpa using hkN⟩] at hv
      rw [← getD_eq_of_getElem hk1, ← getD_eq_of_getElem hk2]
      exact hv

/-- C4 witness: sorting the two-element set `{1, 0}` ascending preserves the
multiset and the emitted `swap_at` trace maps the old packed array to the new
one. -/
theorem c4_witness :
    (sortOp 4 (emplace 4 (emplace 4 emptySet 1) 0) (fun a b => decide (a < b))).packed.Perm
      (emplace 4 (emplace 4 emptySet 1) 0).packed ∧
    applySwaps (sortWithHooks 4 (emplace 4 (emplace 4 emptySet 1) 0)
        (fun a b => decide (a < b))).2 (emplace 4 (emplace 4 emptySet 1) 0).packed =
      (sortOp 4 (emplace 4 (emplace 4 emptySet 1) 0) (fun a b => decide (a < b))).packed := by
  have h := c4_theorem 4 ⟨2, by decide, by decide⟩ (emplace 4 (emplace 4 emptySet 1) 0)
    (fun a b => decide (a < b))
    (Inv_emplace ⟨2, by decide, by decide⟩
      (Inv_emplace ⟨2, by decide, by decide⟩ (Inv_emptySet 4) (by decide) (by decide))
      (by decide) (by decide))
    (by
      intro a b hab
      simp only [decide_eq_true_eq] at hab
      simp only [decide_eq_false_iff_not]
      omega)
    (by
      intro a b c h1 h2
      simp only [decide_eq_false_iff_not] at h1 h2 ⊢
      omega)
  exact ⟨h.2.1, h.2.2.2.2⟩

/-- C4 counterexample: sorting the two-element set `{1, 0}` (packed `[1, 0]`)
descending applies exactly one transposition to the packed array (done by the
sort algorithm, not by the walk), yet `swap_at` fires twice — the second call
is the degenerate `swap_at(0, 0)` closing the cycle — so the hook is not
called "exactly once per transposition applied to the packed array during the
cycle walk". -/
theorem c4_counterexample :
    (emplace 4 (emplace 4 emptySet 1) 0).packed = [1, 0] ∧
    (sortOp 4 (emplace 4 (emplace 4 emptySet 1) 0) (fun a b => decide (b < a))).packed =
      [0, 1] ∧
    (sortWithHooks 4 (emplace 4 (emplace 4 emptySet 1) 0) (fun a b => decide (b < a))).2 =
      [Hook.swapAt 1 0, Hook.swapAt 0 0] := by decide

/-! ### The `swap` operation -/

theorem set_getD_self_gen {α : Type} (l : List α) (i : Nat) (d : α)
    (h : i < l.length) : l.set i (l.getD i d) = l := by
  apply List.ext_getElem
  · rw [List.length_set]
  · intro k hk1 hk2
    by_cases hik : i = k
    · subst hik
      rw [List.getElem_set_self, List.getD_eq_getElem?_getD, List.getElem?_eq_getElem h]
      rfl
    · rw [List.getElem_set_ne hik]

theorem writeCellSp_noop (P : Nat) (sp : Sparse) (e : Nat) {pg : List Nat}
    (hg : sp.getD (pageOf P e) none = some pg) (hoff : offsetOf P e < pg.length) :
    writeCellSp P sp e (getCellSp P sp e) = sp := by
  unfold writeCellSp getCellSp
  rw [hg]
  dsimp only
  have h1 : pg.set (offsetOf P e) (pg.getD (offsetOf P e) NULLW) = pg :=
    set_getD_self_gen pg _ NULLW hoff
  rw [h1, ← hg, set_getD_self_gen sp _ none (getD_some_lt hg)]

/-- Swapping two identifiers that share their index bits (hence their sparse
cell and packed slot) changes nothing. -/
theorem swapOp_key_eq {P : Nat} (hP : PageOK P) {s : SparseSet} {a b : Nat}
    (hI : Inv P s) (hca : contains P s a = true) (hkey : idxBits a = idxBits b) :
    (swapOp P s a b).1 = s := by
  have hcell : getCellSp P s.sparse b = getCellSp P s.sparse a :=
    getCellSp_congr hP s.sparse hkey.symm
  obtain ⟨hia, -⟩ := contains_spec hI hca
  have hpga : hasPage P s.sparse a :=
    hasPage_of_not_null ((contains_true_iff P s a).mp hca)
  obtain ⟨hpg, hpgq⟩ : ∃ pg, s.sparse.getD (pageOf P a) none = some pg := by
    unfold hasPage at hpga
    rcases hg : s.sparse.getD (pageOf P a) none with - | pg
    · rw [hg] at hpga
      simp at hpga
    · exact ⟨pg, rfl⟩
  have hofflt : offsetOf P a < hpg.length := by
    rw [page_length hI.1 hpgq]
    exact offsetOf_lt hP a
  obtain ⟨hpgq2, hoff2⟩ : s.sparse.getD (pageOf P b) none = some hpg ∧
      offsetOf P b < hpg.length := by
    obtain ⟨hpe, hoe⟩ := key_determines_cell hP hkey
    rw [← hpe, ← hoe]
    exact ⟨hpgq, hofflt⟩
  unfold swapOp indexOf toIntegral
  dsimp only
  rw [hcell]
  have hw1 : writeCellSp P s.sparse a (getCellSp P s.sparse a) = s.sparse :=
    writeCellSp_noop P s.sparse a hpgq hofflt
  rw [hw1]
  have hcellb : getCellSp P s.sparse a = getCellSp P s.sparse b :=
    getCellSp_congr hP s.sparse hkey
  rw [hcellb, writeCellSp_noop P s.sparse b hpgq2 hoff2]
  have hpk : ((s.packed.set (getCellSp P s.sparse b)
      (s.packed.getD (getCellSp P s.sparse b) 0)).set (getCellSp P s.sparse b)
      (s.packed.getD (getCellSp P s.sparse b) 0)) = s.packed := by
    rw [List.set_set, set_getD_self_gen _ _ _ (by rw [← hcellb]; exact hia)]
  rw [hpk]

/-- Effect of `swap(a, b)` for identifiers with distinct index bits, both
contained: the packed slots and sparse cells are exchanged, the invariant and
the containment predicate are preserved, and everything else is untouched. -/
theorem swapOp_spec {P : Nat} (hP : PageOK P) {s : SparseSet} {a b : Nat}
    (hI : Inv P s) (hca : contains P s a = true) (hcb : contains P s b = true)
    (hkey : idxBits a ≠ idxBits b) :
    getCellSp P s.sparse a ≠ getCellSp P s.sparse b ∧
    (swapOp P s a b).1.packed.length = s.packed.length ∧
    (∀ e, idxBits e = idxBits a →
      getCellSp P (swapOp P s a b).1.sparse e = getCellSp P s.sparse b) ∧
    (∀ e, idxBits e = idxBits b →
      getCellSp P (swapOp P s a b).1.sparse e = getCellSp P s.sparse a) ∧
    (∀ e, idxBits e ≠ idxBits a → idxBits e ≠ idxBits b →
      getCellSp P (swapOp P s a b).1.sparse e = getCellSp P s.sparse e) ∧
    idxBits ((swapOp P s a b).1.packed.getD (getCellSp P s.sparse a) 0) = idxBits b ∧
    idxBits ((swapOp P s a b).1.packed.getD (getCellSp P s.sparse b) 0) = idxBits a ∧
    (∀ q, q ≠ getCellSp P s.sparse a → q ≠ getCellSp P s.sparse b →
      (swapOp P s a b).1.packed.getD q 0 = s.packed.getD q 0) ∧
    Inv P (swapOp P s a b).1 ∧
    (∀ e, contains P (swapOp P s a b).1 e = contains P s e) := by
  obtain ⟨hia, hka⟩ := contains_spec hI hca
  obtain ⟨hib, hkb⟩ := contains_spec hI hcb
  have hmask := hI.2.1
  have hne : getCellSp P s.sparse a ≠ getCellSp P s.sparse b := by
    intro h
    apply hkey
    rw [← hka, ← hkb, h]
  have hpga : hasPage P s.sparse a :=
    hasPage_of_not_null ((contains_true_iff P s a).mp hca)
  have hpgb : hasPage P s.sparse b :=
    hasPage_of_not_null ((contains_true_iff P s b).mp hcb)
  have hsparse : (swapOp P s a b).1.sparse =
      writeCellSp P (writeCellSp P s.sparse a (getCellSp P s.sparse b)) b
        (getCellSp P s.sparse a) := rfl
  have hpacked : (swapOp P s a b).1.packed =
      (s.packed.set (getCellSp P s.sparse a) (s.packed.getD (getCellSp P s.sparse b) 0)).set
        (getCellSp P s.sparse b) (s.packed.getD (getCellSp P s.sparse a) 0) := rfl
  have hcell_a : ∀ e, idxBits e = idxBits a →
      getCellSp P (swapOp P s a b).1.sparse e = getCellSp P s.sparse b := by
    intro e he
    rw [hsparse, getCellSp_congr hP _ he,
      getCellSp_writeCellSp_ne hP _ hkey,
      getCellSp_writeCellSp_self hP hI.1 hpga]
  have hcell_b : ∀ e, idxBits e = idxBits b →
      getCellSp P (swapOp P s a b).1.sparse e = getCellSp P s.sparse a := by
    intro e he
    rw [hsparse, getCellSp_congr hP _ he,
      getCellSp_writeCellSp_self hP (pagesWF_writeCellSp hI.1 _ _)
        ((hasPage_writeCellSp _ _ _ _).mpr hpgb)]
  have hcell_o : ∀ e, idxBits e ≠ idxBits a → idxBits e ≠ idxBits b →
      getCellSp P (swapOp P s a b).1.sparse e = getCellSp P s.sparse e := by
    intro e hea heb
    rw [hsparse, getCellSp_writeCellSp_ne hP _ heb, getCellSp_writeCellSp_ne hP _ hea]
  have hpk_a : idxBits ((swapOp P s a b).1.packed.getD (getCellSp P s.sparse a) 0) =
      idxBits b := by
    rw [hpacked, getD_set_ne _ _ _ (fun h => hne h.symm),
      getD_set_self _ _ _ _ (by simpa using hia)]
    exact hkb
  have hpk_b : idxBits ((swapOp P s a b).1.packed.getD (getCellSp P s.sparse b) 0) =
      idxBits a := by
    rw [hpacked, getD_set_self _ _ _ _ (by rw [List.length_set]; exact hib)]
    exact hka
  have hpk_o : ∀ q, q ≠ getCellSp P s.sparse a → q ≠ getCellSp P s.sparse b →
      (swapOp P s a b).1.packed.getD q 0 = s.packed.getD q 0 := by
    intro q hqa hqb
    rw [hpacked, getD_set_ne _ _ _ (fun h => hqb h.symm),
      getD_set_ne _ _ _ (fun h => hqa h.symm)]
  have hlen : (swapOp P s a b).1.packed.length = s.packed.length := by
    rw [hpacked, List.length_set, List.length_set]
  have hWF' : pagesWF P (swapOp P s a b).1.sparse := by
    rw [hsparse]
    exact pagesWF_writeCellSp (pagesWF_writeCellSp hI.1 _ _) _ _
  have hInv : Inv P (swapOp P s a b).1 := by
    refine ⟨hWF', by rw [hlen]; exact hmask, ?_, ?_⟩
    · intro i hi
      rw [hlen] at hi
      by_cases hia' : i = getCellSp P s.sparse a
      · subst hia'
        have hk := hpk_a
        rw [hcell_b _ hk]
      · by_cases hib' : i = getCellSp P s.sparse b
        · subst hib'
          have hk := hpk_b
          rw [hcell_a _ hk]
        · rw [hpk_o i hia' hib']
          have hki : idxBits (s.packed.getD i 0) ≠ idxBits a := by
            intro h
            exact hia' (keys_inj hP hI hi hia (by rw [h, hka]))
          have hki2 : idxBits (s.packed.getD i 0) ≠ idxBits b := by
            intro h
            exact hib' (keys_inj hP hI hi hib (by rw [h, hkb]))
          rw [hcell_o _ hki hki2]
          exact hI.2.2.1 i hi
    · intro e he
      by_cases hea : idxBits e = idxBits a
      · rw [hcell_a e hea] at he ⊢
        refine ⟨by rw [hlen]; exact hib, ?_⟩
        rw [hpk_b, hea]
      · by_cases heb : idxBits e = idxBits b
        · rw [hcell_b e heb] at he ⊢
          refine ⟨by rw [hlen]; exact hia, ?_⟩
          rw [hpk_a, heb]
        · rw [hcell_o e hea heb] at he ⊢
          obtain ⟨hv, hvk⟩ := hI.2.2.2 e he
          have hva : getCellSp P s.sparse e ≠ getCellSp P s.sparse a := by
            intro h
            apply hea
            rw [← hvk, h, hka]
          have hvb : getCellSp P s.sparse e ≠ getCellSp P s.sparse b := by
            intro h
            apply heb
            rw [← hvk, h, hkb]
          refine ⟨by rw [hlen]; exact hv, ?_⟩
          rw [hpk_o _ hva hvb]
          exact hvk
  have hcont : ∀ e, contains P (swapOp P s a b).1 e = contains P s e := by
    intro e
    by_cases hea : idxBits e = idxBits a
    · rw [contains_eq P (swapOp P s a b).1 e, hcell_a e hea, ← contains_eq P s b,
        contains_congr hP s hea, hca, hcb]
    · by_cases heb : idxBits e = idxBits b
      · rw [contains_eq P (swapOp P s a b).1 e, hcell_b e heb, ← contains_eq P s a,
          contains_congr hP s heb, hca, hcb]
      · rw [contains_eq P (swapOp P s a b).1 e, hcell_o e hea heb, ← contains_eq P s e]
  exact ⟨hne, hlen, hcell_a, hcell_b, hcell_o, hpk_a, hpk_b, hpk_o, hInv, hcont⟩

theorem respectGo_cons (P : Nat) (s : SparseSet) (pos e : Nat) (rest : List Nat) :
    respectGo P s pos (e :: rest) =
      if pos = 0 then s
      else if contains P s e then
        respectGo P (if decide (e ≠ s.packed.getD pos 0) = true
          then (swapOp P s (s.packed.getD pos 0) e).1 else s) (pos - 1) rest
      else respectGo P s pos rest := rfl

/-- Loop invariant of `respect`: walking a suffix of the master's iteration
sequence places its contained elements (by index bits) at positions `pos`,
`pos - 1`, …, preserves the invariant, the size, the containment predicate
and the packed slots above `pos`, provided every still-to-be-placed element
lives at or below `pos` and the traversed elements have pairwise distinct
index bits. -/
theorem respectGo_spec (P : Nat) (hP : PageOK P) :
    ∀ (rest : List Nat) (s : SparseSet) (pos : Nat),
      Inv P s → pos < s.packed.length →
      (∀ e, e ∈ rest → contains P s e = true → getCellSp P s.sparse e ≤ pos) →
      List.Pairwise (fun x y => idxBits x ≠ idxBits y) rest →
      Inv P (respectGo P s pos rest) ∧
      (respectGo P s pos rest).packed.length = s.packed.length ∧
      (∀ e, contains P (respectGo P s pos rest) e = contains P s e) ∧
      (∀ t, t < (rest.filter (fun e => contains P s e)).length → t < pos →
        idxBits ((respectGo P s pos rest).packed.getD (pos - t) 0) =
          idxBits ((rest.filter (fun e => contains P s e)).getD t 0)) ∧
      (∀ q, pos < q → q < s.packed.length →
        (respectGo P s pos rest).packed.getD q 0 = s.packed.getD q 0) := by
  intro rest
  induction rest with
  | nil =>
    intro s pos hI hpos hfresh hpw
    exact ⟨hI, rfl, fun e => rfl, by intro t ht; simp at ht, fun q _ _ => rfl⟩
  | cons e rest' ih =>
    intro s pos hI hpos hfresh hpw
    rw [respectGo_cons]
    by_cases hp0 : pos = 0
    · rw [if_pos hp0]
      exact ⟨hI, rfl, fun e => rfl, by intro t _ ht; omega, fun q _ _ => rfl⟩
    rw [if_neg hp0]
    by_cases hc : contains P s e = true
    · rw [if_pos hc]
      have hfilter : (e :: rest').filter (fun x => contains P s x) =
          e :: rest'.filter (fun x => contains P s x) := by
        rw [List.filter_cons_of_pos hc]
      have hcres : contains P s (s.packed.getD pos 0) = true := contains_of_mem hI hpos
      have hkres : getCellSp P s.sparse (s.packed.getD pos 0) = pos := hI.2.2.1 pos hpos
      have hkey_head : ∀ x ∈ rest', idxBits e ≠ idxBits x := by
        intro x hx
        exact (List.pairwise_cons.mp hpw).1 x hx
      -- common facts about the state after the conditional swap
      have hstep : ∀ s1 : SparseSet,
          (s1 = s ∧ idxBits (s.packed.getD pos 0) = idxBits e) ∨
          (s1 = (swapOp P s (s.packed.getD pos 0) e).1 ∧
            idxBits (s.packed.getD pos 0) ≠ idxBits e) →
          Inv P s1 ∧ s1.packed.length = s.packed.length ∧
          (∀ x, contains P s1 x = contains P s x) ∧
          idxBits (s1.packed.getD pos 0) = idxBits e ∧
          (∀ q, pos < q → q < s.packed.length →
            s1.packed.getD q 0 = s.packed.getD q 0) ∧
          (∀ x, x ∈ rest' → contains P s1 x = true →
            getCellSp P s1.sparse x ≤ pos - 1) := by
        rintro s1 (⟨rfl, hkk⟩ | ⟨rfl, hkk⟩)
        · refine ⟨hI, rfl, fun x => rfl, hkk, fun q _ _ => rfl, ?_⟩
          intro x hx hcx
          have hle : getCellSp P s1.sparse x ≤ pos := hfresh x (by simp [hx]) hcx
          have hne : getCellSp P s1.sparse x ≠ pos := by
            intro hxp
            obtain ⟨-, hvk⟩ := contains_spec hI hcx
            rw [hxp] at hvk
            exact hkey_head x hx (by rw [← hvk, hkk])
          omega
        · obtain ⟨hne, hlen, hcell_a, hcell_b, hcell_o, hpk_a, hpk_b, hpk_o, hInv, hcont⟩ :=
            swapOp_spec hP hI hcres hc hkk
          have hib_lt : getCellSp P s.sparse e ≤ pos - 1 := by
            have h1 : getCellSp P s.sparse e ≤ pos := hfresh e (by simp) hc
            have h2 : getCellSp P s.sparse e ≠ pos := by
              rw [← hkres]
              exact fun h => hne h.symm
            omega
          refine ⟨hInv, hlen, hcont, ?_, ?_, ?_⟩
          · have h := hpk_a
            rw [hkres] at h
            exact h
          · intro q hq1 hq2
            apply hpk_o q
            · rw [hkres]; omega
            · have := hib_lt; omega
          · intro x hx hcx
            rw [hcont x] at hcx
            by_cases hxr : idxBits x = idxBits (s.packed.getD pos 0)
            · rw [hcell_a x hxr]
              exact hib_lt
            · have hxe : idxBits x ≠ idxBits e := fun h => hkey_head x hx h.symm
              rw [hcell_o x hxr hxe]
              have hle : getCellSp P s.sparse x ≤ pos := hfresh x (by simp [hx]) hcx
              have hne2 : getCellSp P s.sparse x ≠ pos := by
                intro hxp
                obtain ⟨-, hvk⟩ := contains_spec hI hcx
                rw [hxp] at hvk
                exact hxr hvk.symm
              omega
      have hmain : ∀ s1 : SparseSet,
          (s1 = s ∧ idxBits (s.packed.getD pos 0) = idxBits e) ∨
          (s1 = (swapOp P s (s.packed.getD pos 0) e).1 ∧
            idxBits (s.packed.getD pos 0) ≠ idxBits e) →
          Inv P (respectGo P s1 (pos - 1) rest') ∧
          (respectGo P s1 (pos - 1) rest').packed.length = s.packed.length ∧
          (∀ x, contains P (respectGo P s1 (pos - 1) rest') x = contains P s x) ∧
          (∀ t, t < ((e :: rest').filter (fun x => contains P s x)).length → t < pos →
            idxBits ((respectGo P s1 (pos - 1) rest').packed.getD (pos - t) 0) =
              idxBits (((e :: rest').filter (fun x => contains P s x)).getD t 0)) ∧
          (∀ q, pos < q → q < s.packed.length →
            (respectGo P s1 (pos - 1) rest').packed.getD q 0 = s.packed.getD q 0) := by
        intro s1 hcase
        obtain ⟨hI1, hlen1, hcont1, hkey1, habove1, hfresh1⟩ := hstep s1 hcase
        obtain ⟨ihI, ihlen, ihcont, ihplace, ihabove⟩ := ih s1 (pos - 1) hI1
          (by omega) hfresh1 (List.pairwise_cons.mp hpw).2
        have hfiltereq : rest'.filter (fun x => contains P s1 x) =
            rest'.filter (fun x => contains P s x) :=
          List.filter_congr (fun x _ => by rw [hcont1 x])
        refine ⟨ihI, by rw [ihlen, hlen1], fun x => by rw [ihcont x, hcont1 x], ?_, ?_⟩
        · intro t ht htpos
          rw [hfilter] at ht ⊢
          rcases Nat.eq_zero_or_pos t with ht0 | ht0
          · subst ht0
            rw [Nat.sub_zero]
            have hq := ihabove pos (by omega) (by rw [hlen1]; exact hpos)
            rw [hq, hkey1]
            rfl
          · have hplace := ihplace (t - 1)
              (by rw [hfiltereq]; simp only [List.length_cons] at ht; omega)
              (by omega)
            rw [hfiltereq] at hplace
            have harith : pos - 1 - (t - 1) = pos - t := by omega
            rw [harith] at hplace
            rw [hplace]
            have : (e :: rest'.filter (fun x => contains P s x)).getD t 0 =
                (rest'.filter (fun x => contains P s x)).getD (t - 1) 0 := by
              rcases t with - | t'
              · omega
              · rw [List.getD_cons_succ]
                norm_num
            rw [this]
        · intro q hq1 hq2
          rw [ihabove q (by omega) (by rw [hlen1]; exact hq2), habove1 q hq1 hq2]
      by_cases hw : e = s.packed.getD pos 0
      · have hif : (if decide (e ≠ s.packed.getD pos 0) = true
            then (swapOp P s (s.packed.getD pos 0) e).1 else s) = s := by
          rw [if_neg]
          simp [hw]
        rw [hif]
        exact hmain s (Or.inl ⟨rfl, by rw [hw]⟩)
      · have hif : (if decide (e ≠ s.packed.getD pos 0) = true
            then (swapOp P s (s.packed.getD pos 0) e).1 else s) =
            (swapOp P s (s.packed.getD pos 0) e).1 := by
          rw [if_pos]
          exact decide_eq_true hw
        rw [hif]
        by_cases hkk : idxBits (s.packed.getD pos 0) = idxBits e
        · have hs1 : (swapOp P s (s.packed.getD pos 0) e).1 = s :=
            swapOp_key_eq hP hI hcres hkk
          rw [hs1]
          exact hmain s (Or.inl ⟨rfl, hkk⟩)
        · exact hmain _ (Or.inr ⟨rfl, hkk⟩)
    · rw [if_neg hc]
      have hfilter : (e :: rest').filter (fun x => contains P s x) =
          rest'.filter (fun x => contains P s x) := by
        rw [List.filter_cons_of_neg (by simpa using hc)]
      obtain ⟨ihI, ihlen, ihcont, ihplace, ihabove⟩ := ih s pos hI hpos
        (fun x hx hcx => hfresh x (by simp [hx]) hcx) (List.pairwise_cons.mp hpw).2
      refine ⟨ihI, ihlen, ihcont, ?_, ihabove⟩
      intro t ht htpos
      rw [hfilter] at ht ⊢
      exact ihplace t ht htpos

theorem getD_reverse {l : List Nat} {u : Nat} (hu : u < l.length) :
    l.reverse.getD u 0 = l.getD (l.length - 1 - u) 0 := by
  have hu' : u < l.reverse.length := by rw [List.length_reverse]; exact hu
  rw [getD_eq_of_getElem hu', List.getElem_reverse,
    getD_eq_of_getElem (by omega : l.length - 1 - u < l.length)]

/-- An element of `l` surviving a filter appears in the filtered list at the
rank counting the surviving elements strictly before it. -/
theorem filter_rank (p : Nat → Bool) :
    ∀ (l : List Nat) (u : Nat), u < l.length → p (l.getD u 0) = true →
      ((l.take u).filter p).length < (l.filter p).length ∧
      (l.filter p).getD ((l.take u).filter p).length 0 = l.getD u 0 := by
  intro l
  induction l with
  | nil => intro u hu; exact absurd hu (by simp)
  | cons x l' ih =>
    intro u hu hp
    rcases u with - | u'
    · rw [List.getD_cons_zero] at hp
      simp only [List.take_zero, List.filter_nil, List.length_nil]
      rw [List.filter_cons_of_pos hp]
      exact ⟨by simp, by rw [List.getD_cons_zero, List.getD_cons_zero]⟩
    · rw [List.getD_cons_succ] at hp
      have hu' : u' < l'.length := by simpa using hu
      obtain ⟨ih1, ih2⟩ := ih u' hu' hp
      rw [List.take_succ_cons]
      by_cases hx : p x = true
      · rw [List.filter_cons_of_pos hx, List.filter_cons_of_pos hx]
        refine ⟨by simpa using ih1, ?_⟩
        simp only [List.length_cons]
        rw [List.getD_cons_succ, List.getD_cons_succ]
        exact ih2
      · rw [List.filter_cons_of_neg hx, List.filter_cons_of_neg hx,
          List.getD_cons_succ]
        exact ⟨ih1, ih2⟩

/-- Ranks in a filtered list respect the original order. -/
theorem filter_rank_mono (p : Nat → Bool) :
    ∀ (l : List Nat) (u v : Nat), u < v → u < l.length → p (l.getD u 0) = true →
      ((l.take u).filter p).length < ((l.take v).filter p).length := by
  intro l
  induction l with
  | nil => intro u v _ hu; exact absurd hu (by simp)
  | cons x l' ih =>
    intro u v huv hu hp
    rcases u with - | u'
    · rw [List.getD_cons_zero] at hp
      rcases v with - | v'
      · omega
      · rw [List.take_succ_cons, List.filter_cons_of_pos hp]
        simp
    · rcases v with - | v'
      · omega
      · rw [List.getD_cons_succ] at hp
        have h := ih u' v' (by omega) (by simpa using hu) hp
        rw [List.take_succ_cons, List.take_succ_cons]
        by_cases hx : p x = true
        · rw [List.filter_cons_of_pos hx, List.filter_cons_of_pos hx]
          simpa using h
        · rw [List.filter_cons_of_neg hx, List.filter_cons_of_neg hx]
          exact h

/-- A packed slot holding an identifier's index bits determines its cell. -/
theorem cell_of_key {P : Nat} (hP : PageOK P) {s : SparseSet} (hI : Inv P s)
    {q x : Nat} (hq : q < s.packed.length)
    (hk : idxBits (s.packed.getD q 0) = idxBits x) :
    getCellSp P s.sparse x = q := by
  rw [← getCellSp_congr hP s.sparse hk]
  exact hI.2.2.1 q hq

/-- A key-distinct list of contained identifiers is no longer than packed:
each one's index bits occur among the packed keys, which are distinct. -/
theorem commons_length_le {P : Nat} {s : SparseSet} (hI : Inv P s)
    (l : List Nat) (hnd : (l.map idxBits).Nodup) :
    (l.filter (fun e => contains P s e)).length ≤ s.packed.length := by
  have hsub : ((l.filter (fun e => contains P s e)).map idxBits).Sublist
      (l.map idxBits) := (List.filter_sublist l).map idxBits
  have hnd' : ((l.filter (fun e => contains P s e)).map idxBits).Nodup :=
    List.Nodup.sublist hsub hnd
  have hss : ((l.filter (fun e => contains P s e)).map idxBits) ⊆
      (s.packed.map idxBits) := by
    intro k hk
    rw [List.mem_map] at hk
    obtain ⟨x, hx, rfl⟩ := hk
    have hcx : contains P s x = true := by simpa using List.of_mem_filter hx
    obtain ⟨h1, h2⟩ := contains_spec hI hcx
    rw [List.mem_map]
    refine ⟨s.packed.getD (getCellSp P s.sparse x) 0, ?_, h2⟩
    rw [getD_eq_of_getElem h1]
    exact List.getElem_mem h1
  have h := (List.Nodup.subperm hnd' hss).length_le
  rw [List.length_map, List.length_map] at h
  exact h

/-- Rank bookkeeping for `respect`: an identifier contained in both sets sits
in the reversed master packed array at position `len − 1 − index`, survives
the commons filter there, and the filtered list carries its index bits at the
corresponding rank. -/
theorem respect_rank {P : Nat} (hP : PageOK P) {s other : SparseSet}
    (hIo : Inv P other) {x : Nat}
    (hsx : contains P s x = true) (hox : contains P other x = true) :
    other.packed.length - 1 - getCellSp P other.sparse x <
      other.packed.reverse.length ∧
    contains P s (other.packed.reverse.getD
      (other.packed.length - 1 - getCellSp P other.sparse x) 0) = true ∧
    ((other.packed.reverse.take
        (other.packed.length - 1 - getCellSp P other.sparse x)).filter
      (fun e => contains P s e)).length <
      (other.packed.reverse.filter (fun e => contains P s e)).length ∧
    idxBits ((other.packed.reverse.filter (fun e => contains P s e)).getD
      (((other.packed.reverse.take
          (other.packed.length - 1 - getCellSp P other.sparse x)).filter
        (fun e => contains P s e)).length) 0) = idxBits x := by
  obtain ⟨hix, hkx⟩ := contains_spec hIo hox
  have hux : other.packed.length - 1 - getCellSp P other.sparse x <
      other.packed.reverse.length := by
    rw [List.length_reverse]; omega
  have hrx : other.packed.reverse.getD
      (other.packed.length - 1 - getCellSp P other.sparse x) 0 =
      other.packed.getD (getCellSp P other.sparse x) 0 := by
    rw [getD_reverse (by omega :
      other.packed.length - 1 - getCellSp P other.sparse x < other.packed.length)]
    congr 1
    omega
  have hpx : contains P s (other.packed.reverse.getD
      (other.packed.length - 1 - getCellSp P other.sparse x) 0) = true := by
    rw [hrx, contains_congr hP s hkx]
    exact hsx
  obtain ⟨h1, h2⟩ := filter_rank (fun e => contains P s e) other.packed.reverse _
    hux hpx
  refine ⟨hux, hpx, h1, ?_⟩
  rw [h2, hrx, hkx]

/-! ### Claim C5 -/

/-- C5 (amended).  After `respect(other)`, for any two entities present in
both sets the relative order imposed by `other` is reproduced with the same
orientation: `other.index(a) < other.index(b)` gives `index(a) < index(b)` in
this set (not `index(a) > index(b)` as claimed) — the loop walks `other` from
its tail and fills this packed array from its own tail down.  The operation
also preserves the primary invariant, the size and the containment
predicate. -/
theorem c5_theorem (P : Nat) (hP : PageOK P) (s other : SparseSet)
    (hIs : Inv P s) (hIo : Inv P other) (a b : Nat)
    (hsa : contains P s a = true) (hsb : contains P s b = true)
    (hoa : contains P other a = true) (hob : contains P other b = true)
    (hord : indexOf P other a < indexOf P other b) :
    Inv P (respectOp P s other) ∧
    (respectOp P s other).packed.length = s.packed.length ∧
    (∀ e, contains P (respectOp P s other) e = contains P s e) ∧
    indexOf P (respectOp P s other) a < indexOf P (respectOp P s other) b := by
  have hn1 : 0 < s.packed.length := by
    have := (contains_spec hIs hsa).1
    omega
  have hem : entity_mask = 2 ^ 20 - 1 := rfl
  have hbig : (2 : Nat) ^ 20 - 1 < 2 ^ 64 := by norm_num
  have hmask_s := hIs.2.1
  have hmask_o := hIo.2.1
  have hn64 : s.packed.length < 2 ^ 64 := by omega
  have hno64 : other.packed.length < 2 ^ 64 := by omega
  have hpos0 : (s.packed.length + (2 ^ 64 - 1)) % 2 ^ 64 = s.packed.length - 1 := by
    have h1 : s.packed.length + (2 ^ 64 - 1) =
        (s.packed.length - 1) + 1 * 2 ^ 64 := by omega
    rw [h1, Nat.add_mul_mod_self_right]
    exact Nat.mod_eq_of_lt (by omega)
  have hrespect : respectOp P s other =
      respectGo P s (s.packed.length - 1) other.packed.reverse := by
    unfold respectOp
    rw [iterSeq_eq_reverse other hno64, hpos0]
  have hfresh : ∀ e ∈ other.packed.reverse, contains P s e = true →
      getCellSp P s.sparse e ≤ s.packed.length - 1 := by
    intro e _ hce
    have := (contains_spec hIs hce).1
    omega
  have hndo := keys_nodup hP hIo
  have hndo' : List.Pairwise (fun x y => x ≠ y) (other.packed.map idxBits) := hndo
  have hpw1 : other.packed.Pairwise (fun x y => idxBits x ≠ idxBits y) :=
    List.pairwise_map.mp hndo'
  have hpw : List.Pairwise (fun x y => idxBits x ≠ idxBits y)
      other.packed.reverse :=
    List.pairwise_reverse.mpr (List.Pairwise.imp (fun h => Ne.symm h) hpw1)
  obtain ⟨hIf, hlenf, hcontf, hplace, -⟩ :=
    respectGo_spec P hP other.packed.reverse s (s.packed.length - 1) hIs
      (by omega) hfresh hpw
  have hnd_rest : ((other.packed.reverse).map idxBits).Nodup := by
    rw [List.map_reverse]
    exact List.nodup_reverse.mpr hndo
  have hcms_le := commons_length_le hIs other.packed.reverse hnd_rest
  have hnd_cms : (((other.packed.reverse).filter (fun e => contains P s e)).map
      idxBits).Nodup :=
    List.Nodup.sublist ((List.filter_sublist _).map idxBits) hnd_rest
  obtain ⟨hua_lt, hpa, hta_lt, hkey_a⟩ := respect_rank hP hIo hsa hoa
  obtain ⟨hub_lt, hpb, htb_lt, hkey_b⟩ := respect_rank hP hIo hsb hob
  have hord' : getCellSp P other.sparse a < getCellSp P other.sparse b := hord
  have hib_lt : getCellSp P other.sparse b < other.packed.length :=
    (contains_spec hIo hob).1
  have hmono := filter_rank_mono (fun e => contains P s e) other.packed.reverse
    (other.packed.length - 1 - getCellSp P other.sparse b)
    (other.packed.length - 1 - getCellSp P other.sparse a)
    (by omega) hub_lt hpb
  set ta := ((other.packed.reverse.take
      (other.packed.length - 1 - getCellSp P other.sparse a)).filter
    (fun e => contains P s e)).length with hta_def
  set tb := ((other.packed.reverse.take
      (other.packed.length - 1 - getCellSp P other.sparse b)).filter
    (fun e => contains P s e)).length with htb_def
  rw [hrespect]
  set f := respectGo P s (s.packed.length - 1) other.packed.reverse with hf_def
  refine ⟨hIf, hlenf, hcontf, ?_⟩
  have hcell_b : getCellSp P f.sparse b = s.packed.length - 1 - tb := by
    apply cell_of_key hP hIf
    · rw [hlenf]
      omega
    · exact (hplace tb htb_lt (by omega)).trans hkey_b
  show getCellSp P f.sparse a < getCellSp P f.sparse b
  by_cases hcase : ta < s.packed.length - 1
  · have hcell_a : getCellSp P f.sparse a = s.packed.length - 1 - ta := by
      apply cell_of_key hP hIf
      · rw [hlenf]
        omega
      · exact (hplace ta hta_lt hcase).trans hkey_a
    rw [hcell_a, hcell_b]
    omega
  · have hcfa : contains P f a = true := by
      rw [hcontf a]
      exact hsa
    obtain ⟨hclt, hckey⟩ := contains_spec hIf hcfa
    rw [hlenf] at hclt
    have hcell_a : getCellSp P f.sparse a = 0 := by
      by_contra hne0
      have hcpos : 0 < getCellSp P f.sparse a := Nat.pos_of_ne_zero hne0
      have ht2 : s.packed.length - 1 - getCellSp P f.sparse a <
          s.packed.length - 1 := by omega
      have ht2cms : s.packed.length - 1 - getCellSp P f.sparse a <
          ((other.packed.reverse).filter (fun e => contains P s e)).length := by
        omega
      have h := hplace (s.packed.length - 1 - getCellSp P f.sparse a) ht2cms ht2
      have harith : s.packed.length - 1 -
          (s.packed.length - 1 - getCellSp P f.sparse a) =
          getCellSp P f.sparse a := by omega
      rw [harith] at h
      have hkk : idxBits (((other.packed.reverse).filter
          (fun e => contains P s e)).getD
          (s.packed.length - 1 - getCellSp P f.sparse a) 0) =
          idxBits (((other.packed.reverse).filter
            (fun e => contains P s e)).getD ta 0) := by
        rw [← h, hckey, ← hkey_a]
      have heq := keyDist_of_nodup hnd_cms _ _ ht2cms hta_lt hkk
      omega
    rw [hcell_a, hcell_b]
    omega

/-- C5 witness: page size 4, this set holds `[0, 1]`, the master holds
`[1, 0]`; the commons `1` and `0` (with `other.index(1) = 0 < 1 =
other.index(0)`) end up with `index(1) < index(0)` after `respect`. -/
theorem c5_witness :
    Inv 4 (respectOp 4 (emplace 4 (emplace 4 emptySet 0) 1)
      (emplace 4 (emplace 4 emptySet 1) 0)) ∧
    (respectOp 4 (emplace 4 (emplace 4 emptySet 0) 1)
      (emplace 4 (emplace 4 emptySet 1) 0)).packed.length =
      (emplace 4 (emplace 4 emptySet 0) 1).packed.length ∧
    (∀ e, contains 4 (respectOp 4 (emplace 4 (emplace 4 emptySet 0) 1)
      (emplace 4 (emplace 4 emptySet 1) 0)) e =
      contains 4 (emplace 4 (emplace 4 emptySet 0) 1) e) ∧
    indexOf 4 (respectOp 4 (emplace 4 (emplace 4 emptySet 0) 1)
      (emplace 4 (emplace 4 emptySet 1) 0)) 1 <
      indexOf 4 (respectOp 4 (emplace 4 (emplace 4 emptySet 0) 1)
        (emplace 4 (emplace 4 emptySet 1) 0)) 0 :=
  c5_theorem 4 ⟨2, by decide, by decide⟩
    (emplace 4 (emplace 4 emptySet 0) 1) (emplace 4 (emplace 4 emptySet 1) 0)
    (Inv_emplace ⟨2, by decide, by decide⟩
      (Inv_emplace ⟨2, by decide, by decide⟩ (Inv_emptySet 4)
        (by decide) (by decide)) (by decide) (by decide))
    (Inv_emplace ⟨2, by decide, by decide⟩
      (Inv_emplace ⟨2, by decide, by decide⟩ (Inv_emptySet 4)
        (by decide) (by decide)) (by decide) (by decide))
    1 0 (by decide) (by decide) (by decide) (by decide) (by decide)

/-- C5 counterexample: `respect` between two identical two-element sets (page
size 4) leaves the order unchanged; with `other.index(0) = 0 < 1 =
other.index(1)` the frozen claim demands `index(0) > index(1)` afterwards,
but the indices stay `0` and `1`. -/
theorem c5_counterexample :
    contains 4 (emplace 4 (emplace 4 emptySet 0) 1) 0 = true ∧
    contains 4 (emplace 4 (emplace 4 emptySet 0) 1) 1 = true ∧
    indexOf 4 (emplace 4 (emplace 4 emptySet 0) 1) 0 <
      indexOf 4 (emplace 4 (emplace 4 emptySet 0) 1) 1 ∧
    ¬ (indexOf 4 (respectOp 4 (emplace 4 (emplace 4 emptySet 0) 1)
          (emplace 4 (emplace 4 emptySet 0) 1)) 0 >
        indexOf 4 (respectOp 4 (emplace 4 (emplace 4 emptySet 0) 1)
          (emplace 4 (emplace 4 emptySet 0) 1)) 1) := by decide

end EnttSpec
